import Mathlib

/-!
# Verification of the SmartCV job-parsing and upsert pipeline

A shallow embedding, over `List Char` and a JSON-like value type, of the
text-normalisation, format-detection, heading-substitution, heuristic
field-extraction, inference-fallback, merge, fingerprint and Notion-upsert
logic of `app1_parser.py` and `app2_notion_uploader_v3.py`.

Strings are modelled as `List Char`.  Python regular-expression searches are
embedded as direct scanning functions; for each pattern of the source we note
why the scan is equivalent to Python's leftmost-match backtracking semantics.
External collaborators (the OpenAI client, the `markdownify` library,
`json.dumps`, the wall clock, and the Notion REST store) are modelled as
explicit parameters or as a small deterministic store structure mirroring the
interface the code relies on.
-/

namespace SmartCV

/-! ## Character utilities

`isPySpace` models the character class `\s` of Python's `re` module in
Unicode mode (also the set stripped by `str.strip()`): the six ASCII
whitespace characters, the C1 separators, NEL, NBSP and the Unicode space
separators. -/

def isPySpace (c : Char) : Bool :=
  c ∈ [' ', '\t', '\n', '\r', '\x0b', '\x0c',
       '\x1c', '\x1d', '\x1e', '\x1f', '\x85', '\xa0',
       ' ', ' ', ' ', ' ', ' ', ' ', ' ',
       ' ', ' ', ' ', ' ', ' ',
       ' ', ' ', ' ', ' ', '　']

/-- ASCII lower-casing, as performed by `re.I` matching on the ASCII letters
appearing in the source's patterns. -/
def toLowerA (c : Char) : Char :=
  if 'A' ≤ c ∧ c ≤ 'Z' then Char.ofNat (c.toNat + 32) else c

def lowerL (l : List Char) : List Char := l.map toLowerA

/-- Python's `\w` on ASCII input: letters, digits and underscore.  (Python's
Unicode `\w` additionally covers non-ASCII word characters; the claims and
counterexamples below only exercise ASCII text.) -/
def isWordChar (c : Char) : Bool := c.isAlpha || c.isDigit || c = '_'

/-- `containsSub pat l`: `pat` occurs as a contiguous substring of `l`
(Python's `pat in l` / `re.search` on a literal pattern). -/
def containsSub (pat : List Char) : List Char → Bool
  | [] => pat.isEmpty
  | c :: cs => pat.isPrefixOf (c :: cs) || containsSub pat cs

/-- Case-insensitive substring test: `re.search(pat, l, re.I)` for a literal
`pat` (stored lower-case). -/
def containsSubCI (pat : List Char) (l : List Char) : Bool :=
  containsSub pat (lowerL l)

/-! ## `SmartJobParser.clean_text`

```python
def clean_text(self, text):
    if not text:
        return ""
    replacements = {
        "–": "-", "—": "-", "•": "• ", "\xa0": " ", "•": "• ",
        "–": "-", "—": "-"
    }
    for old, new in replacements.items():
        text = text.replace(old, new)
    text = re.sub(r"\s+", " ", text)
    text = re.sub(r"\n\x7b2,\x7d", "\n\n", text)
    return text.strip()
```

The dict literal has duplicate keys: `"–"` is `"–"`, `"—"` is
`"—"` and `"•"` is `"•"`, so the Python dict collapses to the four
entries `– → "-"`, `— → "-"`, `• → "• "`, `\xa0 → " "`
(first-occurrence order, last value — here the values coincide).  Each key is
a single character, so `str.replace` is a per-character expansion. -/

/-- `str.replace` for a single-character needle: every occurrence of `old` is
expanded to `new`, left to right, without reprocessing the output. -/
def replaceChar (old : Char) (new : List Char) : List Char → List Char
  | [] => []
  | c :: cs => if c = old then new ++ replaceChar old new cs
               else c :: replaceChar old new cs

/-- The four collapsed replacement passes, in dict order. -/
def punctFold (l : List Char) : List Char :=
  replaceChar '\xa0' [' ']
    (replaceChar '•' ['•', ' ']
      (replaceChar '—' ['-']
        (replaceChar '–' ['-'] l)))

/-- `re.sub(r"\s+", " ", ·)`: each maximal run of whitespace becomes a single
ASCII space.  `pendingSpace` records whether the previous character belonged
to a run whose single space has already been emitted. -/
def collapseWsAux : Bool → List Char → List Char
  | _, [] => []
  | pendingSpace, c :: cs =>
    if isPySpace c then
      if pendingSpace then collapseWsAux true cs
      else ' ' :: collapseWsAux true cs
    else c :: collapseWsAux false cs

def collapseWs (l : List Char) : List Char := collapseWsAux false l

/-- `re.sub` of two-or-more newlines to exactly two: `seen` counts the
newlines of the current run already emitted (capped at 2). -/
def collapseNlAux : Nat → List Char → List Char
  | _, [] => []
  | seen, c :: cs =>
    if c = '\n' then
      if seen < 2 then '\n' :: collapseNlAux (seen + 1) cs
      else collapseNlAux seen cs
    else c :: collapseNlAux 0 cs

def collapseNl (l : List Char) : List Char := collapseNlAux 0 l

/-- Python `str.strip()`. -/
def pyStrip (l : List Char) : List Char :=
  ((l.dropWhile isPySpace).reverse.dropWhile isPySpace).reverse

/-- `SmartJobParser.clean_text`. -/
def clean_text (t : List Char) : List Char :=
  if t = [] then []
  else pyStrip (collapseNl (collapseWs (punctFold t)))

/-! ## `SmartJobParser.detect_format`

```python
html_patterns = [r"<div", r"<p", r"<ul", r"<li", r"<br"]
markdown_patterns = [r"#+\s", r"\*\*.+\*\*", r"\[.+\]\(.+\)"]
if any(re.search(p, text, re.I) for p in html_patterns): return "html"
elif any(re.search(p, text) for p in markdown_patterns): return "markdown"
return "plain"
```

The HTML patterns are literal, searched case-insensitively.  For the
Markdown patterns only match existence matters here; each scan below is
equivalent to `re.search` success:
* `#+\s` succeeds iff some `'#'` is immediately followed by a whitespace
  character (take the last `'#'` of the matched run);
* `\*\*.+\*\*` succeeds iff somewhere `"**"` is followed by at least one
  non-newline character and then `"**"` (`.` excludes `'\n'`; backtracking
  explores exactly all such decompositions);
* `\[.+\]\(.+\)` succeeds iff somewhere `'['`, then ≥1 non-newline
  characters, then `"]("`, then ≥1 non-newline characters, then `')'`. -/

def hashSpacePat : List Char → Bool
  | '#' :: c :: cs => isPySpace c || hashSpacePat (c :: cs)
  | _ :: cs => hashSpacePat cs
  | [] => false

/-- After an opening `"**"`: at least one non-newline character, then
`"**"`. -/
def boldClose : List Char → Bool
  | [] => false
  | c :: cs => if c = '\n' then false
               else ['*', '*'].isPrefixOf cs || boldClose cs

def boldPat : List Char → Bool
  | '*' :: '*' :: cs => boldClose cs || boldPat ('*' :: cs)
  | _ :: cs => boldPat cs
  | [] => false

/-- After a closing-candidate position inside `\[.+\]\(.+\)`: scanning for
`close` through non-newline characters, at least one already consumed. -/
def scanClose (close : Char) : List Char → Bool
  | [] => false
  | c :: cs => if c = close then true
               else if c = '\n' then false else scanClose close cs

/-- After `'('`: at least one non-newline character, then `')'`. -/
def parenPart : List Char → Bool
  | [] => false
  | c :: cs => if c = '\n' then false else scanClose ')' cs

/-- After `'['` and at least one consumed body character: scan for `"]("`
followed by a `parenPart`, allowing `']'` itself as a body character. -/
def linkScan : List Char → Bool
  | [] => false
  | c :: cs =>
    if c = '\n' then false
    else (c = ']' && (match cs with
                      | '(' :: rest => parenPart rest
                      | _ => false)) || linkScan cs

def linkAfterOpen : List Char → Bool
  | [] => false
  | c :: cs => if c = '\n' then false else linkScan cs

def linkPat : List Char → Bool
  | '[' :: cs => linkAfterOpen cs || linkPat cs
  | _ :: cs => linkPat cs
  | [] => false

def htmlAny (t : List Char) : Bool :=
  [['<','d','i','v'], ['<','p'], ['<','u','l'], ['<','l','i'], ['<','b','r']].any
    (fun p => containsSubCI p t)

def markdownAny (t : List Char) : Bool :=
  hashSpacePat t || boldPat t || linkPat t

/-- `SmartJobParser.detect_format`. -/
def detect_format (t : List Char) : String :=
  if htmlAny t then "html"
  else if markdownAny t then "markdown"
  else "plain"

end SmartCV

namespace SmartCV

/-! ## SHA-256 and `hash_job_text`

```python
def hash_job_text(text, company):
    base = f"{company}_{text}"
    return hashlib.sha256(base.encode("utf-8")).hexdigest()[:16]
```

`hashlib.sha256` is embedded as the FIPS 180-4 algorithm over byte lists,
with 32-bit words as `Nat` reduced mod `2 ^ 32`. -/

def m32 : Nat := 4294967296

def add32 (a b : Nat) : Nat := (a + b) % m32

def rotr32 (n x : Nat) : Nat := ((x >>> n) ||| (x <<< (32 - n))) % m32

def bsig0 (x : Nat) : Nat := (rotr32 2 x) ^^^ (rotr32 13 x) ^^^ (rotr32 22 x)

def bsig1 (x : Nat) : Nat := (rotr32 6 x) ^^^ (rotr32 11 x) ^^^ (rotr32 25 x)

def ssig0 (x : Nat) : Nat := (rotr32 7 x) ^^^ (rotr32 18 x) ^^^ (x >>> 3)

def ssig1 (x : Nat) : Nat := (rotr32 17 x) ^^^ (rotr32 19 x) ^^^ (x >>> 10)

def chF (x y z : Nat) : Nat := (x &&& y) ^^^ ((x ^^^ 0xFFFFFFFF) &&& z)

def majF (x y z : Nat) : Nat := (x &&& y) ^^^ (x &&& z) ^^^ (y &&& z)

def sha256K : List Nat :=
  [1116352408, 1899447441, 3049323471, 3921009573, 961987163,
   1508970993, 2453635748, 2870763221, 3624381080, 310598401,
   607225278, 1426881987, 1925078388, 2162078206, 2614888103,
   3248222580, 3835390401, 4022224774, 264347078, 604807628,
   770255983, 1249150122, 1555081692, 1996064986, 2554220882,
   2821834349, 2952996808, 3210313671, 3336571891, 3584528711,
   113926993, 338241895, 666307205, 773529912, 1294757372,
   1396182291, 1695183700, 1986661051, 2177026350, 2456956037,
   2730485921, 2820302411, 3259730800, 3345764771, 3516065817,
   3600352804, 4094571909, 275423344, 430227734, 506948616,
   659060556, 883997877, 958139571, 1322822218, 1537002063,
   1747873779, 1955562222, 2024104815, 2227730452, 2361852424,
   2428436474, 2756734187, 3204031479, 3329325298]

/-- One message-schedule extension step; `rw` is the schedule so far, most
recent word first, so `W[t-2], W[t-7], W[t-15], W[t-16]` sit at reversed
positions 1, 6, 14, 15. -/
def scheduleStep (rw : List Nat) : Nat :=
  add32 (add32 (ssig1 (rw.getD 1 0)) (rw.getD 6 0))
        (add32 (ssig0 (rw.getD 14 0)) (rw.getD 15 0))

def scheduleExtend : Nat → List Nat → List Nat
  | 0, rw => rw
  | n + 1, rw => scheduleExtend n (scheduleStep rw :: rw)

/-- The 64-word message schedule from the 16 words of a block. -/
def schedule (ws : List Nat) : List Nat := (scheduleExtend 48 ws.reverse).reverse

/-- The eight 32-bit working variables / hash state. -/
structure Hash8 where
  a : Nat
  b : Nat
  c : Nat
  d : Nat
  e : Nat
  f : Nat
  g : Nat
  h : Nat

def initH : Hash8 :=
  ⟨1779033703, 3144134277, 1013904242, 2773480762,
   1359893119, 2600822924, 528734635, 1541459225⟩

def roundStep (s : Hash8) (kw : Nat × Nat) : Hash8 :=
  let t1 := add32 s.h (add32 (bsig1 s.e) (add32 (chF s.e s.f s.g) (add32 kw.1 kw.2)))
  let t2 := add32 (bsig0 s.a) (majF s.a s.b s.c)
  ⟨add32 t1 t2, s.a, s.b, s.c, add32 s.d t1, s.e, s.f, s.g⟩

def compressBlock (s : Hash8) (blockWords : List Nat) : Hash8 :=
  let z := (sha256K.zip (schedule blockWords)).foldl roundStep s
  ⟨add32 s.a z.a, add32 s.b z.b, add32 s.c z.c, add32 s.d z.d,
   add32 s.e z.e, add32 s.f z.f, add32 s.g z.g, add32 s.h z.h⟩

/-- Big-endian 4-byte groups to 32-bit words. -/
def bytesToWords : List Nat → List Nat
  | b0 :: b1 :: b2 :: b3 :: rest => (((b0 * 256 + b1) * 256 + b2) * 256 + b3) :: bytesToWords rest
  | _ => []

/-- The message length as eight big-endian bytes. -/
def lenBytes (n : Nat) : List Nat :=
  [(n >>> 56) % 256, (n >>> 48) % 256, (n >>> 40) % 256, (n >>> 32) % 256,
   (n >>> 24) % 256, (n >>> 16) % 256, (n >>> 8) % 256, n % 256]

/-- FIPS padding: a `0x80` byte, zeros to 56 mod 64, then the bit length. -/
def sha256pad (msg : List Nat) : List Nat :=
  msg ++ 0x80 :: List.replicate ((119 - msg.length % 64) % 64) 0 ++ lenBytes (8 * msg.length)

def toBlocksAux : Nat → List Nat → List (List Nat)
  | 0, _ => []
  | n + 1, l => bytesToWords (l.take 64) :: toBlocksAux n (l.drop 64)

/-- SHA-256 digest (32 bytes) of a byte list. -/
def sha256 (msg : List Nat) : List Nat :=
  let padded := sha256pad msg
  let s := (toBlocksAux (padded.length / 64) padded).foldl compressBlock initH
  [s.a, s.b, s.c, s.d, s.e, s.f, s.g, s.h].foldr
    (fun w acc => (w >>> 24) % 256 :: (w >>> 16) % 256 :: (w >>> 8) % 256 :: w % 256 :: acc) []

def hexChar (n : Nat) : Char := if n < 10 then Char.ofNat (48 + n) else Char.ofNat (87 + n)

def hexDigest (bs : List Nat) : List Char :=
  (bs.map (fun b => [hexChar (b / 16), hexChar (b % 16)])).flatten

/-- UTF-8 encoding of one character. -/
def utf8Char (c : Char) : List Nat :=
  let n := c.toNat
  if n < 0x80 then [n]
  else if n < 0x800 then [0xC0 + n / 64, 0x80 + n % 64]
  else if n < 0x10000 then [0xE0 + n / 4096, 0x80 + (n / 64) % 64, 0x80 + n % 64]
  else [0xF0 + n / 262144, 0x80 + (n / 4096) % 64, 0x80 + (n / 64) % 64, 0x80 + n % 64]

def utf8 (l : List Char) : List Nat := (l.map utf8Char).flatten

/-- `hash_job_text(text, company)`. -/
def hash_job_text (text company : List Char) : List Char :=
  (hexDigest (sha256 (utf8 (company ++ '_' :: text)))).take 16

end SmartCV


namespace SmartCV

/-! ## JSON-like values and Python dicts

Values flowing through the pipeline (the dict produced by `json.loads`, the
heuristic fields, the Notion property payloads) are modelled by `JVal`.
Numbers are modelled as integers: no claim exercises float behaviour.
Python dicts are insertion-ordered association lists with distinct keys;
`rset` is `d[k] = v` (update in place, else append), `rlookup` is
`d.get(k)` / `k in d`. -/

inductive JVal where
  | null : JVal
  | bool : Bool → JVal
  | num : Int → JVal
  | str : List Char → JVal
  | arr : List JVal → JVal
  | obj : List (List Char × JVal) → JVal
deriving BEq, Repr

abbrev Record := List (List Char × JVal)

def rlookup (k : List Char) : Record → Option JVal
  | [] => none
  | (k', v) :: rest => if k' = k then some v else rlookup k rest

def rset (k : List Char) (v : JVal) : Record → Record
  | [] => [(k, v)]
  | (k', v') :: rest => if k' = k then (k', v) :: rest else (k', v') :: rset k v rest

/-- Python truthiness of a JSON value (`bool(v)`). -/
def truthy : JVal → Bool
  | .null => false
  | .bool b => b
  | .num n => n != 0
  | .str s => !s.isEmpty
  | .arr xs => !xs.isEmpty
  | .obj fs => !fs.isEmpty

/-! ## The merge step of `SmartJobParser.run`

```python
for k, v in heuristics.items():
    if k not in parsed or not parsed[k]:
        parsed[k] = v
```
-/

def mergeStep (acc : Record) (kv : List Char × JVal) : Record :=
  match rlookup kv.1 acc with
  | none => rset kv.1 kv.2 acc
  | some v => if truthy v then acc else rset kv.1 kv.2 acc

def mergeHeuristics (parsed heuristics : Record) : Record :=
  heuristics.foldl mergeStep parsed

/-! ## `SmartJobParser.heuristic_extract`

```python
info = {}
salary = re.search(r"\$([0-9,]+)\s*-\s*\$?([0-9,]+)", text)
if salary:
    info["salary_min"] = int(salary.group(1).replace(",", ""))
    info["salary_max"] = int(salary.group(2).replace(",", ""))
    info["currency"] = "USD"
loc = re.search(r"([A-Z][a-z]+,\s*[A-Z]\x7b2\x7d)", text)
if loc:
    info["location"] = loc.group(1)
visa = re.search(r"(?i)(no sponsorship|not offer sponsorship|OPT|CPT)", text)
info["visa_sponsorship"] = not bool(visa)
remote = re.search(r"(?i)(remote|hybrid|on-site)", text)
if remote:
    info["remote_hybrid"] = remote.group(1).capitalize()
return info
```

The scans below implement each search.  For the salary pattern the greedy
quantifiers never need backtracking: shortening `[0-9,]+` leaves a class
character where `-` (or `,` for the location pattern) is required, and
shortening `\s*` leaves a whitespace character where `-` or `[A-Z]` is
required, so maximal munch is the unique candidate at each start position;
`re.search` tries start positions left to right.  `int(...)` raises
`ValueError` on a string that is empty after comma removal, which
`heuristic_extract` does not catch — hence the `Except` result. -/

def salaryClass (c : Char) : Bool := c.isDigit || c = ','

/-- The salary pattern anchored at the current position; returns the two
captured groups. -/
def salaryMatchAt : List Char → Option (List Char × List Char)
  | '$' :: rest =>
    let g1 := rest.takeWhile salaryClass
    if g1 = [] then none
    else
      match (rest.dropWhile salaryClass).dropWhile isPySpace with
      | '-' :: r3 =>
        let r4 := r3.dropWhile isPySpace
        let r5 := match r4 with
                  | '$' :: r => r
                  | r => r
        let g2 := r5.takeWhile salaryClass
        if g2 = [] then none else some (g1, g2)
      | _ => none
  | _ => none

def salarySearch : List Char → Option (List Char × List Char)
  | [] => none
  | c :: cs =>
    match salaryMatchAt (c :: cs) with
    | some g => some g
    | none => salarySearch cs

/-- The location pattern `[A-Z][a-z]+,\s*[A-Z][A-Z]` anchored at the current
position; returns the matched text (= group 1). -/
def locMatchAt : List Char → Option (List Char)
  | [] => none
  | c :: rest =>
    if c.isUpper then
      let ls := rest.takeWhile Char.isLower
      if ls = [] then none
      else
        match rest.dropWhile Char.isLower with
        | ',' :: r2 =>
          let sp := r2.takeWhile isPySpace
          match r2.dropWhile isPySpace with
          | a :: b :: _ =>
            if a.isUpper && b.isUpper then some (c :: (ls ++ ',' :: (sp ++ [a, b])))
            else none
          | _ => none
        | _ => none
    else none

def locSearch : List Char → Option (List Char)
  | [] => none
  | c :: cs =>
    match locMatchAt (c :: cs) with
    | some m => some m
    | none => locSearch cs

/-- The negative visa-signal search (a case-insensitive substring
alternation, no word boundaries). -/
def visaNeg (t : List Char) : Bool :=
  ["no sponsorship".data, "not offer sponsorship".data, "opt".data, "cpt".data].any
    (fun p => containsSubCI p t)

def remoteWords : List (List Char) := ["remote".data, "hybrid".data, "on-site".data]

/-- The remote/hybrid alternation anchored at the current position, first
alternative first; returns the original matched slice. -/
def remoteMatchAt (l : List Char) : Option (List Char) :=
  remoteWords.findSome? fun w =>
    if lowerL (l.take w.length) = w then some (l.take w.length) else none

def remoteSearch : List Char → Option (List Char)
  | [] => none
  | c :: cs =>
    match remoteMatchAt (c :: cs) with
    | some m => some m
    | none => remoteSearch cs

/-- Python `str.capitalize()`: first character upper-cased, the rest
lower-cased (ASCII model). -/
def pyCapitalize : List Char → List Char
  | [] => []
  | c :: cs => c.toUpper :: cs.map toLowerA

/-- Python `int(·)` on the comma-stripped salary groups: the groups consist
of digits and commas, so the argument is a (possibly empty) digit string;
`int("")` raises `ValueError`. -/
def pyInt (l : List Char) : Except Unit Int :=
  if l ≠ [] ∧ l.all Char.isDigit then
    .ok (Int.ofNat (l.foldl (fun a c => a * 10 + (c.toNat - 48)) 0))
  else .error ()

/-- `SmartJobParser.heuristic_extract`.  An uncaught `ValueError` from
`int` is the `.error` outcome. -/
def heuristic_extract (t : List Char) : Except Unit Record := do
  let info1 : Record ←
    match salarySearch t with
    | none => pure []
    | some (g1, g2) => do
      let n1 ← pyInt (g1.filter (fun c => c ≠ ','))
      let n2 ← pyInt (g2.filter (fun c => c ≠ ','))
      pure (rset "currency".data (.str "USD".data)
             (rset "salary_max".data (.num n2)
               (rset "salary_min".data (.num n1) [])))
  let info2 :=
    match locSearch t with
    | some m => rset "location".data (.str m) info1
    | none => info1
  let info3 := rset "visa_sponsorship".data (.bool (!visaNeg t)) info2
  let info4 :=
    match remoteSearch t with
    | some m => rset "remote_hybrid".data (.str (pyCapitalize m)) info3
    | none => info3
  pure info4

/-! ## `SmartJobParser.parse_with_gpt5`

The OpenAI client is external: it is modelled by a response function from
the model name to an outcome (the request payload is the same fixed pair of
messages on both attempts, so the name determines the call).  A raised
exception and a `None` content (whose `.strip()` raises `AttributeError`,
likewise caught by the `except`) are both `.exc`.  `json.loads` is external
and modelled by a parse function; `None` from it models a raised
`JSONDecodeError`, which the same `try` swallows before continuing. -/

inductive ModelResp where
  | exc : ModelResp
  | content : List Char → ModelResp

def tryModels (call : String → ModelResp) (jloads : List Char → Option Record) :
    List String → Option Record
  | [] => none
  | m :: ms =>
    match call m with
    | .exc => tryModels call jloads ms
    | .content s =>
      let c := pyStrip s
      if c = [] then tryModels call jloads ms
      else
        match jloads c with
        | none => tryModels call jloads ms
        | some r => some r

/-- `SmartJobParser.parse_with_gpt5`: try `"gpt-5"` then `"gpt-4o"`, and
return the empty record if both fail. -/
def parse_with_gpt5 (call : String → ModelResp) (jloads : List Char → Option Record) : Record :=
  (tryModels call jloads ["gpt-5", "gpt-4o"]).getD []

end SmartCV

namespace SmartCV

/-! ## `SmartJobParser.convert_to_markdown`

```python
fmt = self.detect_format(text)
if fmt == "html":
    text = md(text, heading_style="ATX", bullets="•")
mapping = \x7b r"(?i)\b(job description|overview|summary)\b": "## Job Description", ... \x7d
for p, rpl in mapping.items():
    text = re.sub(p, rpl, text)
return text.strip()
```

The `markdownify` call `md` is an external library and enters as a
parameter.  Every pattern of the mapping has the shape
`(?i)\b(w₁|…|wₖ)\b` with fixed alternatives that start and end with
letters, so a match is: a position whose preceding character (if any) is
not a word character, the first alternative (in pattern order) matching
case-insensitively there, whose following character (if any) is not a word
character.  `re.sub` replaces all non-overlapping matches left to right and
never rescans replacement text. -/

/-- `matchWordAt w l`: the fixed lower-case word `w` matches
case-insensitively at the head of `l` and the trailing `\b` holds (the next
character, if any, is not a word character). -/
def matchWordAt (w : List Char) (l : List Char) : Bool :=
  (lowerL (l.take w.length) == w) &&
    (match (l.drop w.length).head? with
     | none => true
     | some c => !isWordChar c)

/-- The first alternative (in pattern order) matching at the head of `l`,
as its length. -/
def tryWords (ws : List (List Char)) (l : List Char) : Option Nat :=
  ws.findSome? fun w => if matchWordAt w l then some w.length else none

/-- One `re.sub` pass for one mapping entry.  `prevIsWord` is the
word-character status of the previously scanned original character: the
leading `\b` requires it false at a match start (every alternative starts
with a word character).  After a match the scan resumes past the matched
original characters, whose last one becomes the context. -/
def subWordsAux (ws : List (List Char)) (rpl : List Char) : Bool → List Char → List Char
  | _, [] => []
  | prevIsWord, c :: cs =>
    if prevIsWord then c :: subWordsAux ws rpl (isWordChar c) cs
    else
      match tryWords ws (c :: cs) with
      | some k =>
        rpl ++ subWordsAux ws rpl (isWordChar (((c :: cs).take k).getLastD c)) (cs.drop (k - 1))
      | none => c :: subWordsAux ws rpl (isWordChar c) cs
termination_by _ l => l.length
decreasing_by
  all_goals simp [List.length_drop]
  all_goals omega

def subWords (ws : List (List Char)) (rpl : List Char) (l : List Char) : List Char :=
  subWordsAux ws rpl false l

/-- The keyword-to-heading mapping, in source order, alternatives stored
lower-case. -/
def headingMap : List (List (List Char) × List Char) :=
  [(["job description".data, "overview".data, "summary".data], "## Job Description".data),
   (["responsibilities".data, "duties".data, "tasks".data], "## Responsibilities".data),
   (["qualifications".data, "required skills".data, "requirements".data], "## Qualifications".data),
   (["preferred".data, "nice to have".data], "## Preferred Qualifications".data),
   (["education".data], "## Education".data),
   (["experience".data], "## Experience".data),
   (["salary".data, "compensation".data, "pay".data], "## Compensation".data),
   (["location".data, "work location".data], "## Location".data),
   (["about us".data, "company overview".data], "## About Us".data),
   (["benefits".data, "perks".data, "what we offer".data], "## Benefits".data)]

def applyHeadingMap (t : List Char) : List Char :=
  headingMap.foldl (fun acc p => subWords p.1 p.2 acc) t

/-- `SmartJobParser.convert_to_markdown`, with the external
HTML-to-Markdown conversion `mdConv` as a parameter. -/
def convert_to_markdown (mdConv : List Char → List Char) (t : List Char) : List Char :=
  let text := if detect_format t = "html" then mdConv t else t
  pyStrip (applyHeadingMap text)

/-! ## `SmartJobParser.run` -/

def run (call : String → ModelResp) (jloads : List Char → Option Record)
    (mdConv : List Char → List Char) (jd_text : List Char) :
    Except Unit (Record × List Char) := do
  let cleaned := clean_text jd_text
  let md_text := convert_to_markdown mdConv cleaned
  let heuristics ← heuristic_extract cleaned
  let parsed := parse_with_gpt5 call jloads
  pure (mergeHeuristics parsed heuristics, md_text)

end SmartCV

namespace SmartCV

/-! ## Python stringification and dynamic-typing helpers for the uploader

`save_to_notion` applies `f"\x7bcompany\x7d_\x7btext\x7d"` (via
`hash_job_text`), `[:60]` slicing, `dict.get`, `"sep".join(...)` and list
comprehensions to values taken from a parsed JSON record.  These helpers
model those operations, including the exceptions they raise on values of
unexpected shape (any such exception is caught by the `try` of
`save_to_notion` and re-raised, i.e. the `failed` outcome). -/

/-! `str(v)` for the f-string: `repr`-style rendering for containers; the
quote-escaping corner cases of Python `repr` are not modelled (no claim
exercises them). -/

mutual

def pyRepr : JVal → List Char
  | .null => "None".data
  | .bool b => if b then "True".data else "False".data
  | .num n => (toString n).data
  | .str s => Char.ofNat 39 :: (s ++ [Char.ofNat 39])
  | .arr xs => '[' :: (pyReprArr xs ++ [']'])
  | .obj fs => Char.ofNat 123 :: (pyReprFields fs ++ [Char.ofNat 125])

def pyReprArr : List JVal → List Char
  | [] => []
  | [x] => pyRepr x
  | x :: y :: rest => pyRepr x ++ ',' :: ' ' :: pyReprArr (y :: rest)

def pyReprFields : List (List Char × JVal) → List Char
  | [] => []
  | [(k, v)] => Char.ofNat 39 :: (k ++ Char.ofNat 39 :: ':' :: ' ' :: pyRepr v)
  | (k, v) :: e :: rest =>
    (Char.ofNat 39 :: (k ++ Char.ofNat 39 :: ':' :: ' ' :: pyRepr v)) ++
      ',' :: ' ' :: pyReprFields (e :: rest)

end

def pyStr (v : JVal) : List Char :=
  match v with
  | .str s => s
  | v => pyRepr v

/-- `d.get(k, dflt)` on the parsed record (a dict). -/
def jvGetD (d : Record) (k : List Char) (dflt : JVal) : JVal :=
  (rlookup k d).getD dflt

/-- `v.get(k, dflt)`: raises `AttributeError` unless `v` is a dict. -/
def jvGet? (v : JVal) (k : List Char) (dflt : JVal) : Except Unit JVal :=
  match v with
  | .obj fs => .ok ((rlookup k fs).getD dflt)
  | _ => .error ()

/-- Python iteration (`for x in v`): lists yield elements, strings yield
one-character strings, dicts yield their keys; other values raise
`TypeError`. -/
def pyIter (v : JVal) : Except Unit (List JVal) :=
  match v with
  | .arr xs => .ok xs
  | .str s => .ok (s.map fun c => .str [c])
  | .obj fs => .ok (fs.map fun kv => .str kv.1)
  | _ => .error ()

def joinStrs (sep : List Char) : List JVal → Except Unit (List Char)
  | [] => .ok []
  | [.str s] => .ok s
  | .str s :: y :: rest => do
    let r ← joinStrs sep (y :: rest)
    .ok (s ++ sep ++ r)
  | _ => .error ()

/-- `sep.join(v)`: iterates `v` and requires every element to be a string
(`TypeError` otherwise). -/
def pyJoin (sep : List Char) (v : JVal) : Except Unit (List Char) := do
  joinStrs sep (← pyIter v)

def pyStrVal : JVal → Except Unit (List Char)
  | .str s => .ok s
  | _ => .error ()

/-! ## Notion property payload builders -/

def richTextJ (v : JVal) : JVal :=
  .obj [("rich_text".data, .arr [.obj [("text".data, .obj [("content".data, v)])]])]

def richTextProp (s : List Char) : JVal := richTextJ (.str s)

def titleProp (v : JVal) : JVal :=
  .obj [("title".data, .arr [.obj [("text".data, .obj [("content".data, v)])]])]

def dateProp (s : List Char) : JVal := .obj [("date".data, .obj [("start".data, .str s)])]

def nameObj (v : JVal) : JVal := .obj [("name".data, v)]

def multiSelect (xs : List JVal) : JVal := .obj [("multi_select".data, .arr xs)]

def relationProp (i : Nat) : JVal :=
  .obj [("relation".data, .arr [.obj [("id".data, .num (Int.ofNat i))]])]

/-- Environment of external effects: the wall clock and `json.dumps`. -/
structure Ext where
  today : List Char
  nowIso : List Char
  dumps : Record → List Char

/-- `build_job_props(parsed, jd_text, source_url, job_hash)`.  Total: every
value is built with `.get` defaults, slicing of the two strings, and
`source_url or None`. -/
def build_job_props (ext : Ext) (parsed : Record) (jd_text : List Char)
    (source_url : List Char) (job_hash : List Char) : JVal :=
  .obj [
    ("Job Title".data, titleProp (jvGetD parsed "position_title".data (.str "Untitled Job".data))),
    ("Company".data, richTextJ (jvGetD parsed "company".data (.str "Unknown Company".data))),
    ("Job Description".data, richTextProp (jd_text.take 1900)),
    ("Parsed Snapshot".data, richTextProp ((ext.dumps parsed).take 1900)),
    ("Source URL".data, .obj [("url".data, if source_url = [] then .null else .str source_url)]),
    ("Hash / Fingerprint".data, richTextProp job_hash),
    ("Date Collected".data, dateProp ext.today),
    ("Status".data, .obj [("select".data, .obj [("name".data, .str "Parsed".data)])])]

/-- `build_role_props(parsed)`; fails where the Python raises (non-dict
`.get` targets, joins over non-iterables or non-string elements,
`.replace` on a non-string region). -/
def build_role_props (ext : Ext) (parsed : Record) : Except Unit JVal := do
  let skills := jvGetD parsed "required_preferred_skills".data (.obj [])
  let core ← pyJoin "\n• ".data (← jvGet? skills "core_competencies".data (.arr []))
  let resp ← pyJoin "\n• ".data (jvGetD parsed "responsibilities".data (.arr []))
  let tools ← pyJoin "\n• ".data (← jvGet? skills "tools_technologies".data (.arr []))
  let inds ← pyJoin ", ".data (jvGetD parsed "industry_keywords".data (.arr []))
  let ats ← pyIter (jvGetD parsed "ats_triggers".data (.arr []))
  let regionsV ← jvGet? (jvGetD parsed "location".data (.obj []))
                   "regions".data (.arr [.str "Global".data])
  let regionsL ← pyIter regionsV
  let regions ← regionsL.mapM fun r => do
    let s ← pyStrVal r
    pure (JVal.str (s.filter fun c => c ≠ ','))
  let soft ← pyIter (← jvGet? skills "soft".data (.arr []))
  pure (.obj [
    ("Role Title".data, titleProp (jvGetD parsed "position_title".data (.str "Untitled Role".data))),
    ("Function".data, richTextJ (jvGetD parsed "function".data (.str []))),
    ("Core Competencies".data, richTextProp ("\n• ".data ++ core)),
    ("Responsibility".data, richTextProp ("\n• ".data ++ resp)),
    ("Role Requirements".data, richTextJ (jvGetD parsed "experience_level".data (.str []))),
    ("Technical Tools".data, richTextProp ("\n• ".data ++ tools)),
    ("Industry ID".data, richTextProp inds),
    ("ATS Keywords".data, multiSelect (ats.map nameObj)),
    ("Regions".data, multiSelect (regions.map nameObj)),
    ("Soft Skills".data, multiSelect (soft.map nameObj)),
    ("Target Companies".data, multiSelect [nameObj (jvGetD parsed "company".data (.str "Unknown Company".data))]),
    ("last_parsed_date".data, dateProp ext.nowIso),
    ("parsed_json".data, richTextProp ((ext.dumps parsed).take 1900))])

/-- `build_company_props(parsed)`. -/
def build_company_props (ext : Ext) (parsed : Record) : Except Unit JVal := do
  let inds ← pyIter (jvGetD parsed "industry_keywords".data (.arr []))
  pure (.obj [
    ("Name".data, titleProp (jvGetD parsed "company".data (.str "Unknown Company".data))),
    ("Industry".data, multiSelect (inds.map nameObj)),
    ("Visa Policy".data, richTextJ (jvGetD parsed "visa_citizenship_notes".data (.str []))),
    ("Culture / Values".data, richTextJ (jvGetD parsed "culture".data (.str []))),
    ("Hiring Focus".data, richTextJ (jvGetD parsed "company_focus".data (.str []))),
    ("Last Parsed Date".data, dateProp ext.nowIso),
    ("parsed_json".data, richTextProp ((ext.dumps parsed).take 1900))])

end SmartCV

namespace SmartCV

/-! ## The Notion record store and `save_to_notion`

The store is external; per the interface the code relies on it is three
collections of pages with server-assigned ids.  `notion_query` with the
`rich_text equals` / `title contains` filters is query-by-predicate over
the collection; `pages.create` appends a fresh page; `pages.update`
replaces the properties of the page with the given id.  Every create or
update performed is also recorded in an ordered `WriteOp` log so that
theorems can speak about "zero writes". -/

structure Page where
  pid : Nat
  props : JVal
deriving Repr

structure Store where
  jobs : List Page
  companies : List Page
  roles : List Page
  nextId : Nat
deriving Repr

/-- The plain-text concatenation of a rich_text / title payload array. -/
def textContent (v : JVal) : List Char :=
  match v with
  | .arr xs =>
    (xs.map fun x =>
      match x with
      | .obj fs =>
        match rlookup "text".data fs with
        | some (.obj tfs) =>
          match rlookup "content".data tfs with
          | some (.str s) => s
          | _ => []
        | _ => []
      | _ => []).flatten
  | _ => []

/-- The text of property `propName` (under `field`, i.e. `"rich_text"` or
`"title"`) of a page's properties. -/
def propText (p : JVal) (propName field : List Char) : List Char :=
  match p with
  | .obj fs =>
    match rlookup propName fs with
    | some (.obj pf) =>
      match rlookup field pf with
      | some v => textContent v
      | none => []
    | _ => []
  | _ => []

/-- The dedup filter: `"Hash / Fingerprint" rich_text equals job_hash`. -/
def fpMatches (h : List Char) (pg : Page) : Bool :=
  propText pg.props "Hash / Fingerprint".data "rich_text".data == h

/-- The upsert filter: `propName title contains needle`. -/
def titleContains (propName needle : List Char) (pg : Page) : Bool :=
  containsSub needle (propText pg.props propName "title".data)

/-- `get_first_page_id` over a query result. -/
def get_first_page_id : List Page → Option Nat
  | [] => none
  | p :: _ => some p.pid

inductive Coll where
  | jobs : Coll
  | companies : Coll
  | roles : Coll
deriving Repr, BEq

inductive WriteOp where
  | create : Coll → JVal → WriteOp
  | update : Nat → JVal → WriteOp
deriving Repr

def setProps (pid : Nat) (props : JVal) (l : List Page) : List Page :=
  l.map fun p => if p.pid = pid then { p with props := props } else p

def updatePage (pid : Nat) (props : JVal) (st : Store) : Store :=
  { st with jobs := setProps pid props st.jobs,
            companies := setProps pid props st.companies,
            roles := setProps pid props st.roles }

def createPage (c : Coll) (props : JVal) (st : Store) : Nat × Store :=
  let p : Page := ⟨st.nextId, props⟩
  match c with
  | .jobs => (st.nextId, { st with jobs := st.jobs ++ [p], nextId := st.nextId + 1 })
  | .companies => (st.nextId, { st with companies := st.companies ++ [p], nextId := st.nextId + 1 })
  | .roles => (st.nextId, { st with roles := st.roles ++ [p], nextId := st.nextId + 1 })

inductive SaveOutcome where
  | duplicate : SaveOutcome
  | saved : Nat → SaveOutcome
  | failed : SaveOutcome
deriving Repr, BEq

/-- `props[k] = v` on a built property dict. -/
def jvSetKey (v : JVal) (k : List Char) (x : JVal) : JVal :=
  match v with
  | .obj fs => .obj (rset k x fs)
  | v => v

/-- `save_to_notion(parsed, jd_text, source_url)` against a store state.

Control flow of the source: company and fingerprint; dedup query (if it has
results: warn and return — `duplicate`, nothing written); company query,
company props, update-or-create; role query, role props plus the company
relation, update-or-create; job props plus both relations, create —
`saved`.  Any exception inside the `try` is reported and re-raised —
`failed`; partial writes stay.

A non-string `company` or `position_title` yields `failed` at its query
step: slicing `[:60]` raises `TypeError` on non-sliceable values, and on a
list the REST query returns a 400 which `notion_query` turns into
`RuntimeError`; both are caught by the same `except`, with no write
performed by that step either way. -/
def save_to_notion (ext : Ext) (parsed : Record) (jd_text : List Char)
    (source_url : List Char) (st : Store) : SaveOutcome × Store × List WriteOp :=
  let company := jvGetD parsed "company".data (.str "Unknown Company".data)
  let job_hash := hash_job_text jd_text (pyStr company)
  let q := st.jobs.filter (fpMatches job_hash)
  if !q.isEmpty then (.duplicate, st, [])
  else
    match company with
    | .str companyS =>
      let qc := st.companies.filter (titleContains "Name".data (companyS.take 60))
      match build_company_props ext parsed with
      | .error _ => (.failed, st, [])
      | .ok cprops =>
        let step1 : Nat × Store × List WriteOp :=
          match get_first_page_id qc with
          | some pid => (pid, updatePage pid cprops st, [WriteOp.update pid cprops])
          | none =>
            let r := createPage .companies cprops st
            (r.1, r.2, [WriteOp.create .companies cprops])
        let cid := step1.1
        let st1 := step1.2.1
        let w1 := step1.2.2
        match jvGetD parsed "position_title".data (.str []) with
        | .str titleS =>
          let qr := st1.roles.filter (titleContains "Role Title".data (titleS.take 60))
          match build_role_props ext parsed with
          | .error _ => (.failed, st1, w1)
          | .ok rprops0 =>
            let rprops := jvSetKey rprops0 "Parsed Company".data (relationProp cid)
            let step2 : Nat × Store × List WriteOp :=
              match get_first_page_id qr with
              | some pid => (pid, updatePage pid rprops st1, w1 ++ [WriteOp.update pid rprops])
              | none =>
                let r := createPage .roles rprops st1
                (r.1, r.2, w1 ++ [WriteOp.create .roles rprops])
            let rid := step2.1
            let st2 := step2.2.1
            let w2 := step2.2.2
            let jprops :=
              jvSetKey (jvSetKey (build_job_props ext parsed jd_text source_url job_hash)
                  "Parsed Role Template".data (relationProp rid))
                "Parsed Company".data (relationProp cid)
            let r := createPage .jobs jprops st2
            (.saved r.1, r.2, w2 ++ [WriteOp.create .jobs jprops])
        | _ => (.failed, st1, w1)
    | _ => (.failed, st, [])

end SmartCV

namespace SmartCV

/-! # Theorems -/

/-! ## Fingerprint properties (C2, C10) -/

theorem hexDigest_length (bs : List Nat) : (hexDigest bs).length = 2 * bs.length := by
  induction bs with
  | nil => rfl
  | cons b bs ih =>
    simp only [hexDigest, List.map_cons, List.flatten_cons] at *
    simp [ih]
    omega

theorem sha256_length (m : List Nat) : (sha256 m).length = 32 := rfl

theorem hash_job_text_length (text company : List Char) :
    (hash_job_text text company).length = 16 := by
  simp [hash_job_text, hexDigest_length, sha256_length]

/-- C2: the fingerprint is deterministic and fixed-length — two calls of
`hash_job_text` on the same `(text, company)` arguments return the same
16-character value, and the fingerprints of `(text="X", company="Acme")`
and `(text="X", company="Acme2")` differ. -/
theorem claim_C2_fingerprint_deterministic_fixed_length :
    (∀ text company : List Char,
        hash_job_text text company = hash_job_text text company ∧
        (hash_job_text text company).length = 16) ∧
    hash_job_text "X".data "Acme".data ≠ hash_job_text "X".data "Acme2".data := by
  refine ⟨fun text company => ⟨rfl, hash_job_text_length text company⟩, ?_⟩
  decide

/-- C10: distinct `(company, text)` pairs can collide — `hash_job_text`
hashes the single concatenation `company + "_" + text`, so
`(company="A", text="B_C")` and `(company="A_B", text="C")`, though
distinct, share the base string `"A_B_C"` and hence the fingerprint. -/
theorem claim_C10_fingerprint_collision :
    hash_job_text "B_C".data "A".data = hash_job_text "C".data "A_B".data ∧
    ("A", "B_C") ≠ (("A_B" : String), ("C" : String)) := by
  constructor
  · have hbase : "A".data ++ '_' :: "B_C".data = "A_B".data ++ '_' :: "C".data := by decide
    simp only [hash_job_text, hbase]
  · decide

end SmartCV

namespace SmartCV

/-! ## Inference fallback (C9) -/

/-- A model attempt that fails: the call raises, or the stripped content is
empty, or `json.loads` fails — so the loop moves on to the next target. -/
theorem tryModels_skip (call : String → ModelResp) (jloads : List Char → Option Record)
    (m : String) (ms : List String)
    (h : call m = .exc ∨ ∃ s, call m = .content s ∧
          (pyStrip s = [] ∨ jloads (pyStrip s) = none)) :
    tryModels call jloads (m :: ms) = tryModels call jloads ms := by
  rcases h with h | ⟨s, hs, hb | hb⟩
  · simp [tryModels, h]
  · simp [tryModels, hs, hb]
  · simp only [tryModels, hs]
    split
    · rfl
    · simp [hb]

theorem tryModels_hit (call : String → ModelResp) (jloads : List Char → Option Record)
    (m : String) (ms : List String) (s : List Char) (r : Record)
    (hs : call m = .content s) (hne : pyStrip s ≠ []) (hr : jloads (pyStrip s) = some r) :
    tryModels call jloads (m :: ms) = some r := by
  simp [tryModels, hs, hne, hr]

/-- C9: when the `"gpt-5"` attempt and the single `"gpt-4o"` fallback
attempt both fail (exception, empty content, or unparseable JSON),
`parse_with_gpt5` returns the empty record rather than raising; when the
fallback succeeds its parsed result is returned (there is no further
target). -/
theorem claim_C9_fallback_empty_record (call : String → ModelResp)
    (jloads : List Char → Option Record)
    (hfail5 : call "gpt-5" = .exc ∨ ∃ s, call "gpt-5" = .content s ∧
               (pyStrip s = [] ∨ jloads (pyStrip s) = none)) :
    ((call "gpt-4o" = .exc ∨ ∃ s, call "gpt-4o" = .content s ∧
        (pyStrip s = [] ∨ jloads (pyStrip s) = none)) →
      parse_with_gpt5 call jloads = []) ∧
    (∀ s r, call "gpt-4o" = .content s → pyStrip s ≠ [] → jloads (pyStrip s) = some r →
      parse_with_gpt5 call jloads = r) := by
  constructor
  · intro hfail4
    unfold parse_with_gpt5
    rw [tryModels_skip call jloads "gpt-5" ["gpt-4o"] hfail5,
        tryModels_skip call jloads "gpt-4o" [] hfail4]
    rfl
  · intro s r hs hne hr
    unfold parse_with_gpt5
    rw [tryModels_skip call jloads "gpt-5" ["gpt-4o"] hfail5,
        tryModels_hit call jloads "gpt-4o" [] s r hs hne hr]
    rfl

theorem claim_C9_fallback_empty_record_witness :
    parse_with_gpt5 (fun m => if m = "gpt-5" then .exc else .content "rec".data)
        (fun c => if c = "rec".data then some [("a".data, JVal.bool true)] else none)
      = [("a".data, JVal.bool true)] :=
  (claim_C9_fallback_empty_record _ _ (Or.inl rfl)).2 "rec".data _ rfl
    (by decide) rfl

/-! ## The merge step (C3) -/

theorem rlookup_rset_self (k : List Char) (v : JVal) (r : Record) :
    rlookup k (rset k v r) = some v := by
  induction r with
  | nil => simp [rset, rlookup]
  | cons kv rest ih =>
    obtain ⟨k', v'⟩ := kv
    by_cases h : k' = k <;> simp [rset, rlookup, h, ih]

theorem rlookup_rset_ne (k k' : List Char) (v : JVal) (r : Record) (h : k' ≠ k) :
    rlookup k' (rset k v r) = rlookup k' r := by
  have hkk : k ≠ k' := fun hh => h hh.symm
  induction r with
  | nil => simp [rset, rlookup, hkk]
  | cons kv rest ih =>
    obtain ⟨k0, v0⟩ := kv
    by_cases h0 : k0 = k
    · subst h0
      simp [rset, rlookup, hkk]
    · simp [rset, rlookup, h0, ih]

theorem rlookup_mergeStep_ne (p : Record) (kv : List Char × JVal) (k : List Char)
    (h : kv.1 ≠ k) : rlookup k (mergeStep p kv) = rlookup k p := by
  unfold mergeStep
  split
  · exact rlookup_rset_ne _ _ _ _ (fun hh => h hh.symm)
  · split
    · rfl
    · exact rlookup_rset_ne _ _ _ _ (fun hh => h hh.symm)

/-- Keys never owned by the heuristics are untouched by the whole fold. -/
theorem rlookup_merge_of_not_key (hs : Record) (k : List Char)
    (hnk : ∀ kv ∈ hs, kv.1 ≠ k) :
    ∀ p : Record, rlookup k (mergeHeuristics p hs) = rlookup k p := by
  induction hs with
  | nil => intro p; rfl
  | cons kv rest ih =>
    intro p
    have h1 := rlookup_mergeStep_ne p kv k (hnk kv (List.mem_cons_self _ _))
    have h2 := ih (fun kv' hkv' => hnk kv' (List.mem_cons_of_mem _ hkv')) (mergeStep p kv)
    calc rlookup k (mergeHeuristics p (kv :: rest))
        = rlookup k (mergeHeuristics (mergeStep p kv) rest) := rfl
      _ = rlookup k (mergeStep p kv) := h2
      _ = rlookup k p := h1

theorem rlookup_none_keys (hs : Record) (k : List Char) (h : rlookup k hs = none) :
    ∀ kv ∈ hs, kv.1 ≠ k := by
  induction hs with
  | nil => intro kv hkv; cases hkv
  | cons kv0 rest ih =>
    intro kv hkv
    obtain ⟨k0, v0⟩ := kv0
    by_cases h0 : k0 = k
    · simp [rlookup, h0] at h
    · rcases List.mem_cons.mp hkv with rfl | hkv'
      · exact h0
      · exact ih (by simpa [rlookup, h0] using h) kv hkv'

/-- C3: the merge step of `run` sets `merged[k]` to the heuristic value for
every heuristic key `k` absent from, or falsy in, the inference result;
leaves every key not owned by the heuristics unchanged; and in particular
`responsibilities = []` stays `[]` when the heuristics carry no
`responsibilities` key. -/
theorem claim_C3_merge_overrides_absent_or_falsy (parsed heuristics : Record)
    (hnd : (heuristics.map Prod.fst).Nodup) :
    (∀ k v, (k, v) ∈ heuristics →
      (rlookup k parsed = none ∨ ∃ u, rlookup k parsed = some u ∧ truthy u = false) →
      rlookup k (mergeHeuristics parsed heuristics) = some v) ∧
    (∀ k, rlookup k heuristics = none →
      rlookup k (mergeHeuristics parsed heuristics) = rlookup k parsed) ∧
    (rlookup "responsibilities".data heuristics = none →
      rlookup "responsibilities".data parsed = some (.arr []) →
      rlookup "responsibilities".data (mergeHeuristics parsed heuristics) = some (.arr [])) := by
  have main : ∀ hs : Record, (hs.map Prod.fst).Nodup → ∀ p : Record,
      ∀ k v, (k, v) ∈ hs →
      (rlookup k p = none ∨ ∃ u, rlookup k p = some u ∧ truthy u = false) →
      rlookup k (mergeHeuristics p hs) = some v := by
    intro hs
    induction hs with
    | nil => intro _ p k v hkv; cases hkv
    | cons kv0 rest ih =>
      intro hnd0 p k v hkv hcond
      have hnd1 : (rest.map Prod.fst).Nodup := (List.nodup_cons.mp hnd0).2
      have hout : kv0.1 ∉ rest.map Prod.fst := (List.nodup_cons.mp hnd0).1
      rcases List.mem_cons.mp hkv with rfl | hkv'
      · have hstep : rlookup k (mergeStep p (k, v)) = some v := by
          unfold mergeStep
          rcases hcond with hn | ⟨u, hu, hf⟩
          · simp only [hn]
            exact rlookup_rset_self _ _ _
          · simp only [hu, hf]
            simpa using rlookup_rset_self k v p
        have hrest : ∀ kv' ∈ rest, kv'.1 ≠ k := by
          intro kv' hkv' he
          apply hout
          show k ∈ rest.map Prod.fst
          rw [← he]
          exact List.mem_map_of_mem Prod.fst hkv'
        calc rlookup k (mergeHeuristics (mergeStep p (k, v)) rest)
            = rlookup k (mergeStep p (k, v)) := rlookup_merge_of_not_key rest k hrest _
          _ = some v := hstep
      · have hk0 : kv0.1 ≠ k := by
          intro he
          apply hout
          rw [he]
          exact List.mem_map_of_mem Prod.fst hkv'
        have hkeep := rlookup_mergeStep_ne p kv0 k hk0
        exact ih hnd1 (mergeStep p kv0) k v hkv' (by rw [hkeep]; exact hcond)
  refine ⟨main heuristics hnd parsed, ?_, ?_⟩
  · intro k hk
    exact rlookup_merge_of_not_key heuristics k (rlookup_none_keys heuristics k hk) parsed
  · intro hk hp
    rw [rlookup_merge_of_not_key heuristics _ (rlookup_none_keys heuristics _ hk) parsed]
    exact hp

theorem claim_C3_merge_overrides_absent_or_falsy_witness :
    rlookup "visa_sponsorship".data
        (mergeHeuristics [("responsibilities".data, JVal.arr [])]
          [("visa_sponsorship".data, JVal.bool true)]) = some (JVal.bool true) ∧
    rlookup "responsibilities".data
        (mergeHeuristics [("responsibilities".data, JVal.arr [])]
          [("visa_sponsorship".data, JVal.bool true)]) = some (JVal.arr []) :=
  ⟨(claim_C3_merge_overrides_absent_or_falsy _ _ (by decide)).1 _ _
      (List.mem_cons_self _ _) (Or.inl rfl),
   (claim_C3_merge_overrides_absent_or_falsy _ _ (by decide)).2.2 rfl rfl⟩

/-! ## Format detection precedence (C6) -/

/-- C6: any HTML tag pattern forces `"html"` even when Markdown patterns
are present; only with no HTML pattern is the Markdown check consulted, and
`"plain"` results when neither family matches. -/
theorem claim_C6_html_precedence (t : List Char) :
    (htmlAny t = true → detect_format t = "html") ∧
    (htmlAny t = false →
      detect_format t = (if markdownAny t then "markdown" else "plain")) := by
  constructor <;> intro h <;> simp [detect_format, h]

theorem claim_C6_html_precedence_witness :
    detect_format "<div> **bold**".data = "html" ∧
    markdownAny "<div> **bold**".data = true :=
  ⟨(claim_C6_html_precedence _).1 (by decide), by decide⟩

end SmartCV

namespace SmartCV

/-! ## Heuristic extraction (C4)

`heuristic_extract` is *not* total: on `"$, - $5"` the salary pattern
matches with `group(1) = ","`, and `int("".join-free comma strip)` is
`int("")`, which raises `ValueError`.  The amended statement also records
that `visa_sponsorship` is always present (set from the absence of a
negative phrase), rather than omitted on a non-match. -/

/-- C4 counterexample: the claim says `heuristic_extract` returns without
raising on every input, but on `"$, - $5"` the matched salary group `","`
becomes `int("")`, a `ValueError` that nothing catches. -/
theorem claim_C4_counterexample_dollar_comma :
    heuristic_extract "$, - $5".data = .error () := rfl

theorem mem_takeWhile_pred (p : Char → Bool) (l : List Char) :
    ∀ c ∈ l.takeWhile p, p c := by
  induction l with
  | nil => intro c hc; cases hc
  | cons a l ih =>
    intro c hc
    by_cases hp : p a
    · rw [List.takeWhile_cons_of_pos hp] at hc
      rcases List.mem_cons.mp hc with rfl | hc'
      · exact hp
      · exact ih c hc'
    · rw [List.takeWhile_cons_of_neg hp] at hc
      cases hc

theorem salaryMatchAt_groups (l : List Char) (g1 g2 : List Char)
    (h : salaryMatchAt l = some (g1, g2)) :
    (∀ c ∈ g1, salaryClass c) ∧ (∀ c ∈ g2, salaryClass c) := by
  cases l with
  | nil => simp [salaryMatchAt] at h
  | cons c rest =>
    unfold salaryMatchAt at h
    dsimp only at h
    repeat' split at h
    all_goals
      first
        | exact Option.noConfusion h
        | (injection h with h'
           injection h' with hg1 hg2
           subst hg1
           subst hg2
           exact ⟨fun c hc => mem_takeWhile_pred _ _ c hc,
                  fun c hc => mem_takeWhile_pred _ _ c hc⟩)

theorem salarySearch_groups (t : List Char) (g1 g2 : List Char)
    (h : salarySearch t = some (g1, g2)) :
    (∀ c ∈ g1, salaryClass c) ∧ (∀ c ∈ g2, salaryClass c) := by
  induction t with
  | nil => simp [salarySearch] at h
  | cons c cs ih =>
    unfold salarySearch at h
    split at h
    · next g heq =>
      injection h with h'
      subst h'
      exact salaryMatchAt_groups _ _ _ heq
    · exact ih h

theorem filter_comma_digits (g : List Char) (hg : ∀ c ∈ g, salaryClass c) :
    ∀ c ∈ g.filter (fun c => c ≠ ','), c.isDigit := by
  intro c hc
  obtain ⟨hmem, hne⟩ := List.mem_filter.mp hc
  have hclass := hg c hmem
  simp only [salaryClass, Bool.or_eq_true, decide_eq_true_eq] at hclass
  rcases hclass with hd | hcomma
  · exact hd
  · exact absurd hcomma (by simpa using hne)

theorem pyInt_ok (l : List Char) (hne : l ≠ []) (hd : ∀ c ∈ l, c.isDigit) :
    ∃ n, pyInt l = .ok n := by
  unfold pyInt
  rw [if_pos ⟨hne, List.all_eq_true.mpr fun c hc => hd c hc⟩]
  exact ⟨_, rfl⟩

/-- C4 (amended): `heuristic_extract` returns a field mapping without
raising for every input whose salary match (if any) keeps at least one
digit per captured group after comma removal — an all-commas group raises
`ValueError` through `int("")`.  When the salary, location, or
remote/hybrid pattern finds no match its fields are omitted from the
result; `visa_sponsorship` however is always present, `true` exactly when
no negative-signal phrase occurs. -/
theorem claim_C4_heuristic_extract_total_amended (t : List Char)
    (hsal : ∀ g1 g2, salarySearch t = some (g1, g2) →
      g1.filter (fun c => c ≠ ',') ≠ [] ∧ g2.filter (fun c => c ≠ ',') ≠ []) :
    ∃ info : Record, heuristic_extract t = .ok info ∧
      rlookup "visa_sponsorship".data info = some (.bool (!visaNeg t)) ∧
      (salarySearch t = none →
        rlookup "salary_min".data info = none ∧
        rlookup "salary_max".data info = none ∧
        rlookup "currency".data info = none) ∧
      (locSearch t = none → rlookup "location".data info = none) ∧
      (remoteSearch t = none → rlookup "remote_hybrid".data info = none) := by
  rcases hs : salarySearch t with _ | ⟨g1, g2⟩
  · rcases hl : locSearch t with _ | m <;> rcases hr : remoteSearch t with _ | m'
    · have hex : heuristic_extract t =
          .ok [("visa_sponsorship".data, .bool (!visaNeg t))] := by
        simp only [heuristic_extract, hs, hl, hr]
        rfl
      exact ⟨_, hex, rfl, fun _ => ⟨rfl, rfl, rfl⟩, fun _ => rfl, fun _ => rfl⟩
    · have hex : heuristic_extract t =
          .ok [("visa_sponsorship".data, .bool (!visaNeg t)),
               ("remote_hybrid".data, .str (pyCapitalize m'))] := by
        simp only [heuristic_extract, hs, hl, hr]
        rfl
      exact ⟨_, hex, rfl, fun _ => ⟨rfl, rfl, rfl⟩, fun _ => rfl,
        fun hcon => Option.noConfusion hcon⟩
    · have hex : heuristic_extract t =
          .ok [("location".data, .str m),
               ("visa_sponsorship".data, .bool (!visaNeg t))] := by
        simp only [heuristic_extract, hs, hl, hr]
        rfl
      exact ⟨_, hex, rfl, fun _ => ⟨rfl, rfl, rfl⟩,
        fun hcon => Option.noConfusion hcon, fun _ => rfl⟩
    · have hex : heuristic_extract t =
          .ok [("location".data, .str m),
               ("visa_sponsorship".data, .bool (!visaNeg t)),
               ("remote_hybrid".data, .str (pyCapitalize m'))] := by
        simp only [heuristic_extract, hs, hl, hr]
        rfl
      exact ⟨_, hex, rfl, fun _ => ⟨rfl, rfl, rfl⟩,
        fun hcon => Option.noConfusion hcon,
        fun hcon => Option.noConfusion hcon⟩
  · obtain ⟨hne1, hne2⟩ := hsal g1 g2 hs
    obtain ⟨hcl1, hcl2⟩ := salarySearch_groups t g1 g2 hs
    obtain ⟨n1, hpy1⟩ := pyInt_ok _ hne1 (filter_comma_digits g1 hcl1)
    obtain ⟨n2, hpy2⟩ := pyInt_ok _ hne2 (filter_comma_digits g2 hcl2)
    rcases hl : locSearch t with _ | m <;> rcases hr : remoteSearch t with _ | m'
    · have hex : heuristic_extract t =
          .ok [("salary_min".data, .num n1), ("salary_max".data, .num n2),
               ("currency".data, .str "USD".data),
               ("visa_sponsorship".data, .bool (!visaNeg t))] := by
        simp only [heuristic_extract, hs, hl, hr, hpy1, hpy2]
        rfl
      exact ⟨_, hex, rfl,
        fun hcon => Option.noConfusion hcon,
        fun _ => rfl, fun _ => rfl⟩
    · have hex : heuristic_extract t =
          .ok [("salary_min".data, .num n1), ("salary_max".data, .num n2),
               ("currency".data, .str "USD".data),
               ("visa_sponsorship".data, .bool (!visaNeg t)),
               ("remote_hybrid".data, .str (pyCapitalize m'))] := by
        simp only [heuristic_extract, hs, hl, hr, hpy1, hpy2]
        rfl
      exact ⟨_, hex, rfl,
        fun hcon => Option.noConfusion hcon,
        fun _ => rfl,
        fun hcon => Option.noConfusion hcon⟩
    · have hex : heuristic_extract t =
          .ok [("salary_min".data, .num n1), ("salary_max".data, .num n2),
               ("currency".data, .str "USD".data), ("location".data, .str m),
               ("visa_sponsorship".data, .bool (!visaNeg t))] := by
        simp only [heuristic_extract, hs, hl, hr, hpy1, hpy2]
        rfl
      exact ⟨_, hex, rfl,
        fun hcon => Option.noConfusion hcon,
        fun hcon => Option.noConfusion hcon,
        fun _ => rfl⟩
    · have hex : heuristic_extract t =
          .ok [("salary_min".data, .num n1), ("salary_max".data, .num n2),
               ("currency".data, .str "USD".data), ("location".data, .str m),
               ("visa_sponsorship".data, .bool (!visaNeg t)),
               ("remote_hybrid".data, .str (pyCapitalize m'))] := by
        simp only [heuristic_extract, hs, hl, hr, hpy1, hpy2]
        rfl
      exact ⟨_, hex, rfl,
        fun hcon => Option.noConfusion hcon,
        fun hcon => Option.noConfusion hcon,
        fun hcon => Option.noConfusion hcon⟩

theorem claim_C4_heuristic_extract_total_amended_witness :
    ∃ info : Record, heuristic_extract "x".data = .ok info ∧
      rlookup "visa_sponsorship".data info = some (.bool (!visaNeg "x".data)) ∧
      (salarySearch "x".data = none →
        rlookup "salary_min".data info = none ∧
        rlookup "salary_max".data info = none ∧
        rlookup "currency".data info = none) ∧
      (locSearch "x".data = none → rlookup "location".data info = none) ∧
      (remoteSearch "x".data = none → rlookup "remote_hybrid".data info = none) :=
  claim_C4_heuristic_extract_total_amended "x".data
    (fun g1 g2 h => by
      rw [show salarySearch "x".data = none from rfl] at h
      exact Option.noConfusion h)

end SmartCV

namespace SmartCV

/-! ## `clean_text` normal form (C5, C7)

`re.sub(r"\s+", " ")` runs before the newline rule, so no newline survives
into the second `re.sub`, which is therefore the identity on every
`clean_text` intermediate; the output contains only ASCII-space whitespace,
never twice in a row, none at either end, no folded punctuation variants,
and every `•` followed by a space (or final).  This normal form is exactly
what the second application of `clean_text` preserves (C7). -/

/-- Characters of a cleaned string: no folded punctuation variant survives
and the only whitespace character is the ASCII space. -/
def goodChar (c : Char) : Prop :=
  c ≠ '–' ∧ c ≠ '—' ∧ c ≠ '\xa0' ∧ (isPySpace c → c = ' ')

/-- The normal form established by `clean_text`. -/
structure IsClean (s : List Char) : Prop where
  good : ∀ c ∈ s, goodChar c
  nodbl : List.Chain' (fun a b => ¬(a = ' ' ∧ b = ' ')) s
  bullet : List.Chain' (fun a b => a = '•' → b = ' ') s
  headOk : ∀ c, s.head? = some c → ¬isPySpace c
  lastOk : ∀ c, s.getLast? = some c → ¬isPySpace c

theorem mem_replaceChar (old : Char) (new l : List Char) (a : Char)
    (h : a ∈ replaceChar old new l) : a ∈ new ∨ (a ∈ l ∧ a ≠ old) := by
  induction l with
  | nil => cases h
  | cons c cs ih =>
    unfold replaceChar at h
    by_cases hc : c = old
    · rw [if_pos hc] at h
      rcases List.mem_append.mp h with h1 | h2
      · exact Or.inl h1
      · rcases ih h2 with h3 | ⟨h4, h5⟩
        · exact Or.inl h3
        · exact Or.inr ⟨List.mem_cons_of_mem _ h4, h5⟩
    · rw [if_neg hc] at h
      rcases List.mem_cons.mp h with rfl | h2
      · exact Or.inr ⟨List.mem_cons_self _ _, hc⟩
      · rcases ih h2 with h3 | ⟨h4, h5⟩
        · exact Or.inl h3
        · exact Or.inr ⟨List.mem_cons_of_mem _ h4, h5⟩

theorem replaceChar_eq_self (old : Char) (new l : List Char) (h : old ∉ l) :
    replaceChar old new l = l := by
  induction l with
  | nil => rfl
  | cons c cs ih =>
    unfold replaceChar
    rw [if_neg (fun hc => h (by rw [← hc]; exact List.mem_cons_self c cs)),
        ih (fun hm => h (List.mem_cons_of_mem _ hm))]

theorem mem_collapseWsAux (l : List Char) (a : Char) :
    ∀ b, a ∈ collapseWsAux b l → a = ' ' ∨ (a ∈ l ∧ ¬isPySpace a) := by
  induction l with
  | nil => intro b h; cases h
  | cons c cs ih =>
    intro b h
    unfold collapseWsAux at h
    by_cases hc : isPySpace c
    · rw [if_pos hc] at h
      by_cases hb : b
      · subst hb
        rw [if_pos rfl] at h
        rcases ih true h with h1 | ⟨h2, h3⟩
        · exact Or.inl h1
        · exact Or.inr ⟨List.mem_cons_of_mem _ h2, h3⟩
      · simp only [Bool.not_eq_true] at hb
        subst hb
        simp only [Bool.false_eq_true, if_false] at h
        rcases List.mem_cons.mp h with rfl | h2
        · exact Or.inl rfl
        · rcases ih true h2 with h1 | ⟨h3, h4⟩
          · exact Or.inl h1
          · exact Or.inr ⟨List.mem_cons_of_mem _ h3, h4⟩
    · rw [if_neg hc] at h
      rcases List.mem_cons.mp h with rfl | h2
      · exact Or.inr ⟨List.mem_cons_self _ _, hc⟩
      · rcases ih false h2 with h1 | ⟨h3, h4⟩
        · exact Or.inl h1
        · exact Or.inr ⟨List.mem_cons_of_mem _ h3, h4⟩

theorem collapseNlAux_id (l : List Char) (h : ∀ c ∈ l, c ≠ '\n') :
    ∀ n, collapseNlAux n l = l := by
  induction l with
  | nil => intro n; rfl
  | cons c cs ih =>
    intro n
    unfold collapseNlAux
    rw [if_neg (h c (List.mem_cons_self _ _)),
        ih (fun c' hc' => h c' (List.mem_cons_of_mem _ hc')) 0]

theorem head?_dropWhile_not (p : Char → Bool) (l : List Char) :
    ∀ c, (l.dropWhile p).head? = some c → ¬ p c := by
  induction l with
  | nil => intro c h; cases h
  | cons a l ih =>
    intro c h
    by_cases ha : p a
    · rw [List.dropWhile_cons_of_pos ha] at h
      exact ih c h
    · rw [List.dropWhile_cons_of_neg ha] at h
      injection h with h'
      subst h'
      exact ha

theorem dropWhile_of_head_not (p : Char → Bool) (l : List Char) (c : Char)
    (hh : l.head? = some c) (hc : ¬ p c) : l.dropWhile p = l := by
  cases l with
  | nil => rfl
  | cons a l =>
    injection hh with h'
    subst h'
    exact List.dropWhile_cons_of_neg hc

theorem getLast?_dropWhile (p : Char → Bool) (l : List Char)
    (h : l.dropWhile p ≠ []) : (l.dropWhile p).getLast? = l.getLast? := by
  induction l with
  | nil => rfl
  | cons a l ih =>
    by_cases ha : p a
    · rw [List.dropWhile_cons_of_pos ha] at h ⊢
      have hl : l ≠ [] := by
        intro he
        subst he
        exact h rfl
      rw [ih h]
      cases l with
      | nil => exact absurd rfl hl
      | cons b l' => rfl
    · rw [List.dropWhile_cons_of_neg ha]

theorem pyStrip_headOk (l : List Char) :
    ∀ c, (pyStrip l).head? = some c → ¬isPySpace c := by
  intro c h
  unfold pyStrip at h
  rw [List.head?_reverse] at h
  have hne : (l.dropWhile isPySpace).reverse.dropWhile isPySpace ≠ [] := by
    intro he
    rw [he] at h
    cases h
  rw [getLast?_dropWhile _ _ hne, List.getLast?_reverse] at h
  exact head?_dropWhile_not _ _ c h

theorem pyStrip_lastOk (l : List Char) :
    ∀ c, (pyStrip l).getLast? = some c → ¬isPySpace c := by
  intro c h
  unfold pyStrip at h
  rw [List.getLast?_reverse] at h
  exact head?_dropWhile_not _ _ c h

theorem chain'_pyStrip (R : Char → Char → Prop) (l : List Char)
    (h : List.Chain' R l) : List.Chain' R (pyStrip l) := by
  unfold pyStrip
  apply List.chain'_reverse.mpr
  apply List.Chain'.suffix _ (List.dropWhile_suffix isPySpace)
  apply List.chain'_reverse.mpr
  exact List.Chain'.suffix h (List.dropWhile_suffix isPySpace)

theorem mem_pyStrip (l : List Char) (a : Char) (h : a ∈ pyStrip l) : a ∈ l := by
  unfold pyStrip at h
  rw [List.mem_reverse] at h
  have h2 := (List.dropWhile_suffix isPySpace).sublist.subset h
  rw [List.mem_reverse] at h2
  exact (List.dropWhile_suffix isPySpace).sublist.subset h2

end SmartCV

namespace SmartCV

theorem collapseWsAux_cons_space (b : Bool) (c : Char) (cs : List Char)
    (hc : isPySpace c) :
    collapseWsAux b (c :: cs) =
      if b then collapseWsAux true cs else ' ' :: collapseWsAux true cs := by
  conv_lhs => rw [collapseWsAux.eq_def]
  dsimp only
  rw [if_pos hc]

theorem collapseWsAux_cons_nonspace (b : Bool) (c : Char) (cs : List Char)
    (hc : ¬ isPySpace c) :
    collapseWsAux b (c :: cs) = c :: collapseWsAux false cs := by
  conv_lhs => rw [collapseWsAux.eq_def]
  dsimp only
  rw [if_neg hc]

theorem replaceBullet_chain (l : List Char) :
    List.Chain' (fun a b => a = '•' → b = ' ') (replaceChar '•' ['•', ' '] l) := by
  induction l with
  | nil => simp [replaceChar]
  | cons c cs ih =>
    unfold replaceChar
    by_cases hc : c = '•'
    · rw [if_pos hc]
      refine List.chain'_cons'.mpr ⟨?_, List.chain'_cons'.mpr ⟨?_, ih⟩⟩
      · intro y hy _
        rw [Option.mem_def] at hy
        exact (Option.some.inj hy).symm
      · intro y _ hcc
        exact absurd hcc (by decide)
    · rw [if_neg hc]
      exact List.chain'_cons'.mpr ⟨fun y _ hcc => absurd hcc hc, ih⟩

theorem replaceChar_singleton_map (old x : Char) (l : List Char) :
    replaceChar old [x] l = l.map (fun c => if c = old then x else c) := by
  induction l with
  | nil => rfl
  | cons c cs ih =>
    unfold replaceChar
    by_cases hc : c = old
    · rw [if_pos hc]
      simp [hc, ih]
    · rw [if_neg hc]
      simp [hc, ih]

theorem punctFold_bullet (t : List Char) :
    List.Chain' (fun a b => a = '•' → b = ' ') (punctFold t) := by
  unfold punctFold
  rw [replaceChar_singleton_map]
  rw [List.chain'_map]
  apply List.Chain'.imp ?_ (replaceBullet_chain _)
  intro a b hab ha
  by_cases haa : a = '\xa0'
  · rw [if_pos haa] at ha
    exact absurd ha (by decide)
  · rw [if_neg haa] at ha
    have hb := hab ha
    rw [hb]
    decide

theorem collapseWsAux_nodbl (l : List Char) :
    List.Chain' (fun a b => ¬(a = ' ' ∧ b = ' ')) (collapseWsAux false l) ∧
    List.Chain' (fun a b => ¬(a = ' ' ∧ b = ' ')) (collapseWsAux true l) ∧
    (∀ c, (collapseWsAux true l).head? = some c → c ≠ ' ') := by
  induction l with
  | nil =>
    refine ⟨by simp [collapseWsAux], by simp [collapseWsAux], ?_⟩
    intro c h
    simp [collapseWsAux] at h
  | cons c cs ih =>
    obtain ⟨ihf, iht, ihh⟩ := ih
    by_cases hc : isPySpace c
    · refine ⟨?_, ?_, ?_⟩
      · rw [collapseWsAux_cons_space false c cs hc]
        simp only [Bool.false_eq_true, if_false]
        refine List.chain'_cons'.mpr ⟨?_, iht⟩
        intro y hy hand
        exact ihh y (Option.mem_def.mp hy) hand.2
      · rw [collapseWsAux_cons_space true c cs hc, if_pos rfl]
        exact iht
      · rw [collapseWsAux_cons_space true c cs hc, if_pos rfl]
        exact ihh
    · refine ⟨?_, ?_, ?_⟩
      · rw [collapseWsAux_cons_nonspace false c cs hc]
        refine List.chain'_cons'.mpr ⟨?_, ihf⟩
        intro y _ hand
        exact hc (by rw [hand.1]; decide)
      · rw [collapseWsAux_cons_nonspace true c cs hc]
        refine List.chain'_cons'.mpr ⟨?_, ihf⟩
        intro y _ hand
        exact hc (by rw [hand.1]; decide)
      · rw [collapseWsAux_cons_nonspace true c cs hc]
        intro d hd
        injection hd with h'
        intro he
        rw [← h'] at he
        exact hc (by rw [he]; decide)

theorem collapseWsAux_false_head (l : List Char) (c : Char) (h : l.head? = some c) :
    (collapseWsAux false l).head? = some (if isPySpace c then ' ' else c) := by
  cases l with
  | nil => cases h
  | cons a l =>
    injection h with h'
    subst h'
    by_cases hc : isPySpace a
    · rw [collapseWsAux_cons_space false a l hc]
      simp [hc]
    · rw [collapseWsAux_cons_nonspace false a l hc]
      simp [hc]

theorem collapseWsAux_bullet (l : List Char)
    (hb : List.Chain' (fun a b => a = '•' → b = ' ') l) :
    List.Chain' (fun a b => a = '•' → b = ' ') (collapseWsAux false l) ∧
    List.Chain' (fun a b => a = '•' → b = ' ') (collapseWsAux true l) := by
  induction l with
  | nil => constructor <;> simp [collapseWsAux]
  | cons c cs ih =>
    have hbh := (List.chain'_cons'.mp hb).1
    obtain ⟨ihf, iht⟩ := ih (List.chain'_cons'.mp hb).2
    by_cases hc : isPySpace c
    · rw [collapseWsAux_cons_space false c cs hc, collapseWsAux_cons_space true c cs hc]
      refine ⟨?_, ?_⟩
      · simp only [Bool.false_eq_true, if_false]
        refine List.chain'_cons'.mpr ⟨?_, iht⟩
        intro y _ hcc
        exact absurd hcc (by decide)
      · rw [if_pos rfl]
        exact iht
    · rw [collapseWsAux_cons_nonspace false c cs hc, collapseWsAux_cons_nonspace true c cs hc]
      by_cases hcb : c = '•'
      · subst hcb
        have hcons : ∀ y, (collapseWsAux false cs).head? = some y → y = ' ' := by
          intro y hy
          cases hcs : cs.head? with
          | none =>
            cases cs with
            | nil => simp [collapseWsAux] at hy
            | cons a l => cases hcs
          | some d =>
            have hd : d = ' ' := hbh d (Option.mem_def.mpr hcs) rfl
            rw [collapseWsAux_false_head cs d hcs] at hy
            injection hy with h'
            rw [← h', hd]
            decide
        constructor
        · exact List.chain'_cons'.mpr ⟨fun y hy _ => hcons y (Option.mem_def.mp hy), ihf⟩
        · exact List.chain'_cons'.mpr ⟨fun y hy _ => hcons y (Option.mem_def.mp hy), ihf⟩
      · constructor <;>
          exact List.chain'_cons'.mpr ⟨fun y _ hcc => absurd hcc hcb, ihf⟩

end SmartCV

namespace SmartCV

theorem replaceChar_cons_eq (old : Char) (new : List Char) (c : Char) (cs : List Char)
    (h : c = old) : replaceChar old new (c :: cs) = new ++ replaceChar old new cs := by
  conv_lhs => rw [replaceChar.eq_def]
  dsimp only
  rw [if_pos h]

theorem replaceChar_cons_ne (old : Char) (new : List Char) (c : Char) (cs : List Char)
    (h : c ≠ old) : replaceChar old new (c :: cs) = c :: replaceChar old new cs := by
  conv_lhs => rw [replaceChar.eq_def]
  dsimp only
  rw [if_neg h]

theorem replaceBullet_head (l : List Char) :
    (replaceChar '•' ['•', ' '] l).head? = l.head? := by
  cases l with
  | nil => rfl
  | cons c cs =>
    by_cases hc : c = '•'
    · rw [replaceChar_cons_eq _ _ _ _ hc, hc]
      rfl
    · rw [replaceChar_cons_ne _ _ _ _ hc]
      rfl

theorem collapseWsAux_agree (l : List Char) (d : Char) (hh : l.head? = some d)
    (hd : ¬ isPySpace d) : collapseWsAux true l = collapseWsAux false l := by
  cases l with
  | nil => rfl
  | cons c cs =>
    injection hh with h'
    subst h'
    rw [collapseWsAux_cons_nonspace true _ _ hd, collapseWsAux_cons_nonspace false _ _ hd]

theorem punctFold_not_bad (t : List Char) :
    '–' ∉ punctFold t ∧ '—' ∉ punctFold t ∧ '\xa0' ∉ punctFold t := by
  unfold punctFold
  refine ⟨?_, ?_, ?_⟩
  · intro h
    rcases mem_replaceChar _ _ _ _ h with h1 | ⟨h2, _⟩
    · exact absurd h1 (by decide)
    · rcases mem_replaceChar _ _ _ _ h2 with h3 | ⟨h4, _⟩
      · exact absurd h3 (by decide)
      · rcases mem_replaceChar _ _ _ _ h4 with h5 | ⟨h6, _⟩
        · exact absurd h5 (by decide)
        · rcases mem_replaceChar _ _ _ _ h6 with h7 | ⟨_, h8⟩
          · exact absurd h7 (by decide)
          · exact h8 rfl
  · intro h
    rcases mem_replaceChar _ _ _ _ h with h1 | ⟨h2, _⟩
    · exact absurd h1 (by decide)
    · rcases mem_replaceChar _ _ _ _ h2 with h3 | ⟨h4, _⟩
      · exact absurd h3 (by decide)
      · rcases mem_replaceChar _ _ _ _ h4 with h5 | ⟨_, h8⟩
        · exact absurd h5 (by decide)
        · exact h8 rfl
  · intro h
    rcases mem_replaceChar _ _ _ _ h with h1 | ⟨_, h8⟩
    · exact absurd h1 (by decide)
    · exact h8 rfl

theorem clean_text_isClean (t : List Char) : IsClean (clean_text t) := by
  unfold clean_text
  split
  · refine ⟨?_, ?_, ?_, ?_, ?_⟩
    · intro c hc
      exact absurd hc (List.not_mem_nil c)
    · exact List.chain'_nil
    · exact List.chain'_nil
    · intro c h
      cases h
    · intro c h
      cases h
  · have hbad := punctFold_not_bad t
    have hgoodW : ∀ c ∈ collapseWs (punctFold t), goodChar c := by
      intro c hc
      rcases mem_collapseWsAux _ _ _ hc with rfl | ⟨hmem, hnsp⟩
      · exact ⟨by decide, by decide, by decide, fun _ => rfl⟩
      · exact ⟨fun he => hbad.1 (he ▸ hmem), fun he => hbad.2.1 (he ▸ hmem),
          fun he => hbad.2.2 (he ▸ hmem), fun hsp => absurd hsp hnsp⟩
    have hnl : ∀ c ∈ collapseWs (punctFold t), c ≠ '\n' := by
      intro c hc he
      have hg := (hgoodW c hc).2.2.2 (by rw [he]; decide)
      rw [he] at hg
      exact absurd hg (by decide)
    have hN : collapseNl (collapseWs (punctFold t)) = collapseWs (punctFold t) :=
      collapseNlAux_id _ hnl 0
    rw [hN]
    have hnodbl := (collapseWsAux_nodbl (punctFold t)).1
    have hbul := (collapseWsAux_bullet (punctFold t) (punctFold_bullet t)).1
    exact ⟨fun c hc => hgoodW c (mem_pyStrip _ _ hc),
           chain'_pyStrip _ _ hnodbl,
           chain'_pyStrip _ _ hbul,
           pyStrip_headOk _,
           pyStrip_lastOk _⟩

end SmartCV

namespace SmartCV

/-- On a clean string, re-running the bullet expansion and the whitespace
collapse reproduces the string, except for one trailing space when it ends
in a bullet (which the final `strip` removes). -/
theorem collapseWs_replaceBullet_clean :
    ∀ n (s : List Char), s.length ≤ n →
    List.Chain' (fun a b => ¬(a = ' ' ∧ b = ' ')) s →
    List.Chain' (fun a b => a = '•' → b = ' ') s →
    (∀ c ∈ s, goodChar c) →
    (∀ c, s.getLast? = some c → ¬isPySpace c) →
    collapseWsAux false (replaceChar '•' ['•', ' '] s) =
      s ++ (if s.getLast? = some '•' then [' '] else []) := by
  intro n
  induction n with
  | zero =>
    intro s hlen _ _ _ _
    have hs : s = [] := List.length_eq_zero.mp (Nat.le_zero.mp hlen)
    subst hs
    rfl
  | succ n ih =>
    intro s hlen hnd hbu hg hlast
    cases s with
    | nil => rfl
    | cons c s2 =>
      have hgc := hg c (List.mem_cons_self _ _)
      by_cases hcb : c = '•'
      · subst hcb
        cases s2 with
        | nil => rfl
        | cons d s3 =>
          have hd : d = ' ' :=
            (List.chain'_cons'.mp hbu).1 d (Option.mem_def.mpr rfl) rfl
          subst hd
          cases s3 with
          | nil =>
            exact absurd (by decide : isPySpace ' ' = true) (hlast ' ' rfl)
          | cons e s4 =>
            have hne : ¬ (' ' = ' ' ∧ e = ' ') :=
              (List.chain'_cons'.mp (List.chain'_cons'.mp hnd).2).1 e (Option.mem_def.mpr rfl)
            have he : ¬ isPySpace e = true := by
              intro hsp
              have he' := (hg e (List.mem_cons_of_mem _
                (List.mem_cons_of_mem _ (List.mem_cons_self _ _)))).2.2.2 hsp
              exact hne ⟨rfl, he'⟩
            have hlen3 : (e :: s4).length ≤ n := by
              simp only [List.length_cons] at hlen ⊢
              omega
            have hnd3 := (List.chain'_cons'.mp (List.chain'_cons'.mp hnd).2).2
            have hbu3 := (List.chain'_cons'.mp (List.chain'_cons'.mp hbu).2).2
            have hg3 : ∀ x ∈ e :: s4, goodChar x := fun x hx =>
              hg x (List.mem_cons_of_mem _ (List.mem_cons_of_mem _ hx))
            have hlast3 : ∀ x, (e :: s4).getLast? = some x → ¬isPySpace x := by
              intro x hx
              exact hlast x
                (by rw [List.getLast?_cons_cons, List.getLast?_cons_cons]; exact hx)
            rw [replaceChar_cons_eq _ _ _ _ rfl,
                replaceChar_cons_ne _ _ _ _ (by decide : ' ' ≠ '•')]
            simp only [List.cons_append, List.nil_append]
            rw [collapseWsAux_cons_nonspace false '•' _ (by decide),
                collapseWsAux_cons_space false ' ' _ (by decide)]
            simp only [Bool.false_eq_true, if_false]
            rw [collapseWsAux_cons_space true ' ' _ (by decide), if_pos rfl]
            rw [collapseWsAux_agree _ e (by rw [replaceBullet_head]; rfl) he]
            rw [ih (e :: s4) hlen3 hnd3 hbu3 hg3 hlast3]
            rw [List.getLast?_cons_cons, List.getLast?_cons_cons]
            simp [List.cons_append]
      · by_cases hcs : isPySpace c
        · have hc' : c = ' ' := hgc.2.2.2 hcs
          subst hc'
          cases s2 with
          | nil => exact absurd (by decide : isPySpace ' ' = true) (hlast ' ' rfl)
          | cons e s3 =>
            have hne : ¬ (' ' = ' ' ∧ e = ' ') :=
              (List.chain'_cons'.mp hnd).1 e (Option.mem_def.mpr rfl)
            have he : ¬ isPySpace e = true := by
              intro hsp
              have he' := (hg e (List.mem_cons_of_mem _ (List.mem_cons_self _ _))).2.2.2 hsp
              exact hne ⟨rfl, he'⟩
            have hlen3 : (e :: s3).length ≤ n := by
              simp only [List.length_cons] at hlen ⊢
              omega
            have hnd3 := (List.chain'_cons'.mp hnd).2
            have hbu3 := (List.chain'_cons'.mp hbu).2
            have hg3 : ∀ x ∈ e :: s3, goodChar x := fun x hx =>
              hg x (List.mem_cons_of_mem _ hx)
            have hlast3 : ∀ x, (e :: s3).getLast? = some x → ¬isPySpace x := by
              intro x hx
              exact hlast x (by rw [List.getLast?_cons_cons]; exact hx)
            rw [replaceChar_cons_ne _ _ _ _ (by decide : ' ' ≠ '•')]
            rw [collapseWsAux_cons_space false ' ' _ (by decide)]
            simp only [Bool.false_eq_true, if_false]
            rw [collapseWsAux_agree _ e (by rw [replaceBullet_head]; rfl) he]
            rw [ih (e :: s3) hlen3 hnd3 hbu3 hg3 hlast3]
            rw [List.getLast?_cons_cons]
            simp [List.cons_append]
        · cases s2 with
          | nil =>
            rw [replaceChar_cons_ne _ _ _ _ hcb]
            rw [collapseWsAux_cons_nonspace false _ _ hcs]
            have hl : ([c] : List Char).getLast? = some c := rfl
            rw [hl, if_neg (show ¬(some c = some '•') from
              fun h => hcb (Option.some.inj h))]
            rfl
          | cons e s3 =>
            have hlen3 : (e :: s3).length ≤ n := by
              simp only [List.length_cons] at hlen ⊢
              omega
            have hnd3 := (List.chain'_cons'.mp hnd).2
            have hbu3 := (List.chain'_cons'.mp hbu).2
            have hg3 : ∀ x ∈ e :: s3, goodChar x := fun x hx =>
              hg x (List.mem_cons_of_mem _ hx)
            have hlast3 : ∀ x, (e :: s3).getLast? = some x → ¬isPySpace x := by
              intro x hx
              exact hlast x (by rw [List.getLast?_cons_cons]; exact hx)
            rw [replaceChar_cons_ne _ _ _ _ hcb]
            rw [collapseWsAux_cons_nonspace false _ _ hcs]
            rw [ih (e :: s3) hlen3 hnd3 hbu3 hg3 hlast3]
            rw [List.getLast?_cons_cons]
            simp [List.cons_append]

end SmartCV

namespace SmartCV

theorem pyStrip_eq_self (s : List Char)
    (hh : ∀ c, s.head? = some c → ¬isPySpace c)
    (hl : ∀ c, s.getLast? = some c → ¬isPySpace c) : pyStrip s = s := by
  cases s with
  | nil => rfl
  | cons a s2 =>
    unfold pyStrip
    have h1 : List.dropWhile isPySpace (a :: s2) = a :: s2 :=
      dropWhile_of_head_not isPySpace (a :: s2) a rfl (hh a rfl)
    rw [h1]
    obtain ⟨x, hx⟩ := Option.isSome_iff_exists.mp
      (List.getLast?_isSome.mpr (show (a :: s2) ≠ [] by simp))
    have h3 : List.dropWhile isPySpace (a :: s2).reverse = (a :: s2).reverse := by
      apply dropWhile_of_head_not isPySpace (a :: s2).reverse x _ (hl x hx)
      rw [List.head?_reverse]
      exact hx
    rw [h3, List.reverse_reverse]

theorem pyStrip_append_space (s : List Char) (hne : s ≠ [])
    (hh : ∀ c, s.head? = some c → ¬isPySpace c)
    (hl : ∀ c, s.getLast? = some c → ¬isPySpace c) :
    pyStrip (s ++ [' ']) = s := by
  obtain ⟨a, s2, rfl⟩ : ∃ a s2, s = a :: s2 := by
    cases s with
    | nil => exact absurd rfl hne
    | cons a s2 => exact ⟨a, s2, rfl⟩
  unfold pyStrip
  have h1 : List.dropWhile isPySpace (a :: s2 ++ [' ']) = a :: s2 ++ [' '] :=
    dropWhile_of_head_not isPySpace (a :: s2 ++ [' ']) a rfl (hh a rfl)
  rw [h1]
  have h2 : (a :: s2 ++ [' ']).reverse = ' ' :: (a :: s2).reverse := by
    rw [show a :: s2 ++ [' '] = (a :: s2) ++ [' '] from rfl, List.reverse_append]
    rfl
  rw [h2, List.dropWhile_cons_of_pos (by decide : isPySpace ' ' = true)]
  obtain ⟨x, hx⟩ := Option.isSome_iff_exists.mp
    (List.getLast?_isSome.mpr (show (a :: s2) ≠ [] by simp))
  have h3 : List.dropWhile isPySpace (a :: s2).reverse = (a :: s2).reverse := by
    apply dropWhile_of_head_not isPySpace (a :: s2).reverse x _ (hl x hx)
    rw [List.head?_reverse]
    exact hx
  rw [h3, List.reverse_reverse]

/-- A clean string is a fixed point of `clean_text`. -/
theorem clean_text_of_isClean (s : List Char) (h : IsClean s) : clean_text s = s := by
  by_cases hse : s = []
  · rw [hse]
    rfl
  · unfold clean_text
    rw [if_neg hse]
    have h13 : replaceChar '–' ['-'] s = s :=
      replaceChar_eq_self _ _ _ (fun hm => (h.good _ hm).1 rfl)
    have h14 : replaceChar '—' ['-'] s = s :=
      replaceChar_eq_self _ _ _ (fun hm => (h.good _ hm).2.1 rfl)
    have hA0 : replaceChar '\xa0' [' '] (replaceChar '•' ['•', ' '] s) =
        replaceChar '•' ['•', ' '] s := by
      apply replaceChar_eq_self
      intro hm
      rcases mem_replaceChar _ _ _ _ hm with h1 | ⟨h2, _⟩
      · exact absurd h1 (by decide)
      · exact (h.good _ h2).2.2.1 rfl
    have hW : collapseWsAux false (replaceChar '•' ['•', ' '] s) =
        s ++ (if s.getLast? = some '•' then [' '] else []) :=
      collapseWs_replaceBullet_clean s.length s le_rfl h.nodbl h.bullet h.good h.lastOk
    unfold punctFold
    rw [h13, h14, hA0]
    unfold collapseWs
    rw [hW]
    have hnl : ∀ c ∈ s ++ (if s.getLast? = some '•' then [' '] else []), c ≠ '\n' := by
      intro c hc he
      subst he
      rcases List.mem_append.mp hc with h1 | h2
      · exact absurd ((h.good _ h1).2.2.2 (by decide)) (by decide)
      · by_cases hcond : s.getLast? = some '•'
        · rw [if_pos hcond] at h2
          exact absurd h2 (by decide)
        · rw [if_neg hcond] at h2
          cases h2
    rw [show collapseNl (s ++ (if s.getLast? = some '•' then [' '] else []))
          = s ++ (if s.getLast? = some '•' then [' '] else []) from
        collapseNlAux_id _ hnl 0]
    by_cases hcond : s.getLast? = some '•'
    · rw [if_pos hcond]
      exact pyStrip_append_space s hse h.headOk h.lastOk
    · rw [if_neg hcond, List.append_nil]
      exact pyStrip_eq_self s h.headOk h.lastOk

/-- C7: `clean_text` is idempotent — a second application returns the first
result unchanged. -/
theorem claim_C7_clean_text_idempotent (t : List Char) :
    clean_text (clean_text t) = clean_text t :=
  clean_text_of_isClean (clean_text t) (clean_text_isClean t)

/-- C5 counterexample: the claim says runs of three or more newlines
collapse to exactly two, but the whitespace collapse runs first and
replaces every newline with a space: `clean_text "a\n\n\nb"` is `"a b"`,
not `"a\n\nb"`. -/
theorem claim_C5_counterexample_newlines :
    clean_text "a\n\n\nb".data = "a b".data ∧
    clean_text "a\n\n\nb".data ≠ "a\n\nb".data := by
  constructor
  · decide
  · decide

/-- C5 (amended): `clean_text` folds the punctuation variants, collapses
every whitespace run — newlines included — to a single ASCII space (so no
newline survives and the newline-collapsing substitution never fires),
trims, and maps empty input to the empty string: the output contains no
`–`, `—` or NBSP, its only whitespace character is `' '`, never doubled,
and neither end is whitespace. -/
theorem claim_C5_clean_text_amended :
    clean_text [] = [] ∧
    ∀ t : List Char,
      '\n' ∉ clean_text t ∧
      '–' ∉ clean_text t ∧ '—' ∉ clean_text t ∧ '\xa0' ∉ clean_text t ∧
      (∀ c ∈ clean_text t, isPySpace c → c = ' ') ∧
      List.Chain' (fun a b => ¬(a = ' ' ∧ b = ' ')) (clean_text t) ∧
      (∀ c, (clean_text t).head? = some c → ¬isPySpace c) ∧
      (∀ c, (clean_text t).getLast? = some c → ¬isPySpace c) := by
  refine ⟨rfl, ?_⟩
  intro t
  have h := clean_text_isClean t
  refine ⟨?_, ?_, ?_, ?_, ?_, h.nodbl, h.headOk, h.lastOk⟩
  · intro hm
    exact absurd ((h.good _ hm).2.2.2 (by decide)) (by decide)
  · intro hm
    exact (h.good _ hm).1 rfl
  · intro hm
    exact (h.good _ hm).2.1 rfl
  · intro hm
    exact (h.good _ hm).2.2.1 rfl
  · intro c hm
    exact (h.good _ hm).2.2.2

end SmartCV

namespace SmartCV

/-! ## The upsert engine (C1) -/

theorem build_company_props_no_fp (ext : Ext) (parsed : Record) (cprops : JVal)
    (h : build_company_props ext parsed = .ok cprops) :
    propText cprops "Hash / Fingerprint".data "rich_text".data = [] := by
  unfold build_company_props at h
  cases hA : pyIter (jvGetD parsed "industry_keywords".data (.arr [])) with
  | error e =>
    rw [hA] at h
    simp [Bind.bind, Except.bind] at h
  | ok inds =>
    rw [hA] at h
    simp only [Bind.bind, Except.bind, pure, Except.pure] at h
    injection h with h2
    rw [← h2]
    rfl

theorem build_role_props_no_fp (ext : Ext) (parsed : Record) (rprops0 x : JVal)
    (h : build_role_props ext parsed = .ok rprops0) :
    propText (jvSetKey rprops0 "Parsed Company".data x)
      "Hash / Fingerprint".data "rich_text".data = [] := by
  unfold build_role_props at h
  simp only [Bind.bind, Except.bind, pure, Except.pure] at h
  repeat' split at h
  all_goals
    first
      | exact Except.noConfusion h
      | (injection h with h2; rw [← h2]; rfl)

theorem hash_ne_nil (text company : List Char) : hash_job_text text company ≠ [] := by
  intro he
  have hl := hash_job_text_length text company
  rw [he] at hl
  simp at hl

theorem nil_beq_false (hsh : List Char) (h : hsh ≠ []) :
    (([] : List Char) == hsh) = false := by
  cases hsh with
  | nil => exact absurd rfl h
  | cons a l => rfl

/-- Pages whose properties carry no fingerprint field never match the dedup
filter for a real hash. -/
theorem fpMatches_of_no_fp (hsh : List Char) (hne : hsh ≠ []) (i : Nat) (props : JVal)
    (hp : propText props "Hash / Fingerprint".data "rich_text".data = []) :
    fpMatches hsh ⟨i, props⟩ = false := by
  show (propText props "Hash / Fingerprint".data "rich_text".data == hsh) = false
  rw [hp]
  exact nil_beq_false hsh hne

/-- `pages.update` with fingerprint-free properties keeps the jobs filter
empty. -/
theorem filter_setProps_nil (hsh : List Char) (pid : Nat) (props : JVal) (l : List Page)
    (hl : l.filter (fpMatches hsh) = [])
    (hp : ∀ i, fpMatches hsh ⟨i, props⟩ = false) :
    (setProps pid props l).filter (fpMatches hsh) = [] := by
  rw [List.filter_eq_nil_iff] at hl ⊢
  intro pg hpg
  rw [setProps, List.mem_map] at hpg
  obtain ⟨p0, hp0, hrep⟩ := hpg
  by_cases hid : p0.pid = pid
  · rw [if_pos hid] at hrep
    rw [← hrep]
    simp only [Bool.not_eq_true]
    exact hp p0.pid
  · rw [if_neg hid] at hrep
    rw [← hrep]
    exact hl p0 hp0

/-- The job page built by `save_to_notion` does match its own
fingerprint. -/
theorem fpMatches_job_page (ext : Ext) (parsed : Record) (jd_text source_url hsh : List Char)
    (x y : JVal) (i : Nat) :
    fpMatches hsh ⟨i, jvSetKey (jvSetKey (build_job_props ext parsed jd_text source_url hsh)
      "Parsed Role Template".data x) "Parsed Company".data y⟩ = true := by
  show (propText _ "Hash / Fingerprint".data "rich_text".data == hsh) = true
  have hp : propText (jvSetKey (jvSetKey (build_job_props ext parsed jd_text source_url hsh)
      "Parsed Role Template".data x) "Parsed Company".data y)
      "Hash / Fingerprint".data "rich_text".data = hsh ++ [] := rfl
  rw [hp, List.append_nil]
  exact beq_self_eq_true hsh

end SmartCV

namespace SmartCV

/-- C1: when the Job-collection dedup query for the computed fingerprint
returns at least one result, `save_to_notion` ends in the `duplicate`
outcome with the store untouched and an empty write log (zero create or
update calls on Company, RoleTemplate or Job); and ingesting the same
`(company, text)` pair twice from a store with no matching fingerprint
creates exactly one matching Job record — the second call reports
`duplicate` and performs zero writes. -/
theorem claim_C1_duplicate_short_circuit (ext : Ext) (parsed : Record)
    (jd_text source_url : List Char) (st : Store) :
    (st.jobs.filter (fpMatches (hash_job_text jd_text
        (pyStr (jvGetD parsed "company".data (.str "Unknown Company".data))))) ≠ [] →
      save_to_notion ext parsed jd_text source_url st = (.duplicate, st, [])) ∧
    (∀ companyS titleS cprops rprops0,
      st.jobs.filter (fpMatches (hash_job_text jd_text
        (pyStr (jvGetD parsed "company".data (.str "Unknown Company".data))))) = [] →
      jvGetD parsed "company".data (.str "Unknown Company".data) = .str companyS →
      jvGetD parsed "position_title".data (.str []) = .str titleS →
      build_company_props ext parsed = .ok cprops →
      build_role_props ext parsed = .ok rprops0 →
      ∃ jid st1 w1,
        save_to_notion ext parsed jd_text source_url st = (.saved jid, st1, w1) ∧
        (st1.jobs.filter (fpMatches (hash_job_text jd_text
          (pyStr (jvGetD parsed "company".data (.str "Unknown Company".data)))))).length = 1 ∧
        save_to_notion ext parsed jd_text source_url st1 = (.duplicate, st1, [])) := by
  constructor
  · intro hne
    simp only [save_to_notion]
    cases hq : st.jobs.filter (fpMatches (hash_job_text jd_text
        (pyStr (jvGetD parsed "company".data (.str "Unknown Company".data))))) with
    | nil => exact absurd hq hne
    | cons p rest =>
      rfl
  · intro companyS titleS cprops rprops0 hq hcomp htitle hcp hrp
    rw [hcomp] at hq ⊢
    have hfpc : ∀ i, fpMatches (hash_job_text jd_text (pyStr (JVal.str companyS)))
        ⟨i, cprops⟩ = false := fun i =>
      fpMatches_of_no_fp _ (hash_ne_nil _ _) i cprops
        (build_company_props_no_fp ext parsed cprops hcp)
    simp only [save_to_notion, hcomp, hq, htitle, hcp, hrp, List.isEmpty_nil,
      Bool.not_false, if_true, createPage, updatePage]
    cases hqc : get_first_page_id
        (st.companies.filter (titleContains "Name".data (companyS.take 60))) with
    | none =>
      simp only [hqc]
      cases hqr : get_first_page_id
          (st.roles.filter (titleContains "Role Title".data (titleS.take 60))) with
      | none =>
        simp only [hqr]
        refine ⟨_, _, _, rfl, ?_, ?_⟩
        · dsimp only
          rw [List.filter_append, hq,
            List.filter_cons_of_pos (fpMatches_job_page ext parsed jd_text source_url _ _ _ _)]
          rfl
        · simp only [save_to_notion, hcomp]
          rw [List.filter_append, hq,
            List.filter_cons_of_pos (fpMatches_job_page ext parsed jd_text source_url _ _ _ _)]
          rfl
      | some rpid =>
        simp only [hqr]
        have hfpr : ∀ i, fpMatches (hash_job_text jd_text (pyStr (JVal.str companyS)))
            ⟨i, jvSetKey rprops0 "Parsed Company".data (relationProp st.nextId)⟩ = false :=
          fun i => fpMatches_of_no_fp _ (hash_ne_nil _ _) i _
            (build_role_props_no_fp ext parsed rprops0 _ hrp)
        have hj2 : (setProps rpid (jvSetKey rprops0 "Parsed Company".data
            (relationProp st.nextId)) st.jobs).filter
            (fpMatches (hash_job_text jd_text (pyStr (JVal.str companyS)))) = [] :=
          filter_setProps_nil _ rpid _ st.jobs hq hfpr
        refine ⟨_, _, _, rfl, ?_, ?_⟩
        · dsimp only
          rw [List.filter_append, hj2,
            List.filter_cons_of_pos (fpMatches_job_page ext parsed jd_text source_url _ _ _ _)]
          rfl
        · simp only [save_to_notion, hcomp]
          rw [List.filter_append, hj2,
            List.filter_cons_of_pos (fpMatches_job_page ext parsed jd_text source_url _ _ _ _)]
          rfl
    | some cpid =>
      simp only [hqc]
      have hj1 : (setProps cpid cprops st.jobs).filter
          (fpMatches (hash_job_text jd_text (pyStr (JVal.str companyS)))) = [] :=
        filter_setProps_nil _ cpid cprops st.jobs hq hfpc
      cases hqr : get_first_page_id
          ((setProps cpid cprops st.roles).filter
            (titleContains "Role Title".data (titleS.take 60))) with
      | none =>
        simp only [hqr]
        refine ⟨_, _, _, rfl, ?_, ?_⟩
        · dsimp only
          rw [List.filter_append, hj1,
            List.filter_cons_of_pos (fpMatches_job_page ext parsed jd_text source_url _ _ _ _)]
          rfl
        · simp only [save_to_notion, hcomp]
          rw [List.filter_append, hj1,
            List.filter_cons_of_pos (fpMatches_job_page ext parsed jd_text source_url _ _ _ _)]
          rfl
      | some rpid =>
        simp only [hqr]
        have hfpr : ∀ i, fpMatches (hash_job_text jd_text (pyStr (JVal.str companyS)))
            ⟨i, jvSetKey rprops0 "Parsed Company".data (relationProp cpid)⟩ = false :=
          fun i => fpMatches_of_no_fp _ (hash_ne_nil _ _) i _
            (build_role_props_no_fp ext parsed rprops0 _ hrp)
        have hj2 : (setProps rpid (jvSetKey rprops0 "Parsed Company".data
            (relationProp cpid)) (setProps cpid cprops st.jobs)).filter
            (fpMatches (hash_job_text jd_text (pyStr (JVal.str companyS)))) = [] :=
          filter_setProps_nil _ rpid _ _ hj1 hfpr
        refine ⟨_, _, _, rfl, ?_, ?_⟩
        · dsimp only
          rw [List.filter_append, hj2,
            List.filter_cons_of_pos (fpMatches_job_page ext parsed jd_text source_url _ _ _ _)]
          rfl
        · simp only [save_to_notion, hcomp]
          rw [List.filter_append, hj2,
            List.filter_cons_of_pos (fpMatches_job_page ext parsed jd_text source_url _ _ _ _)]
          rfl

end SmartCV

namespace SmartCV

theorem claim_C1_duplicate_short_circuit_witness :
    ∃ jid st1 w1,
      save_to_notion ⟨[], [], fun _ => []⟩ [] [] [] ⟨[], [], [], 0⟩ = (.saved jid, st1, w1) ∧
      (st1.jobs.filter (fpMatches (hash_job_text []
        (pyStr (jvGetD [] "company".data (.str "Unknown Company".data)))))).length = 1 ∧
      save_to_notion ⟨[], [], fun _ => []⟩ [] [] [] st1 = (.duplicate, st1, []) :=
  (claim_C1_duplicate_short_circuit ⟨[], [], fun _ => []⟩ [] [] [] ⟨[], [], [], 0⟩).2
    "Unknown Company".data [] _ _ rfl rfl rfl rfl rfl

end SmartCV

namespace SmartCV

/-! ## Heading substitution (C8)

C8 fails as stated: the mapping patterns carry `\b` word boundaries, so a
document containing `"responsibilities"` only inside a longer word (e.g.
`"xresponsibilitiesy"`) is left unchanged.  The amended claim requires a
word-boundary-delimited occurrence and a non-HTML document (the HTML branch
first runs the external `markdownify`).  The proof machinery: any match of
the responsibilities pass inserts the heading (`subWords_insert`), and no
word of any other pass can overlap the occurrence (`subWords_preserve` /
`subWords_preserve_bocc` with per-pass overlap side conditions discharged
by `decide`). -/

/-- Two lists can agree on a common prefix region (one is a prefix of the
other): an overlap between a pattern word and a protected region is only
possible when their lower-cased texts are compatible in this sense. -/
def compat (a b : List Char) : Bool := a.isPrefixOf b || b.isPrefixOf a

theorem subWordsAux_nil (ws : List (List Char)) (rpl : List Char) (b : Bool) :
    subWordsAux ws rpl b [] = [] := by
  simp [subWordsAux]

theorem subWordsAux_cons_word (ws : List (List Char)) (rpl : List Char)
    (c : Char) (cs : List Char) :
    subWordsAux ws rpl true (c :: cs) = c :: subWordsAux ws rpl (isWordChar c) cs := by
  rw [subWordsAux]
  simp

theorem subWordsAux_cons_match (ws : List (List Char)) (rpl : List Char)
    (c : Char) (cs : List Char) (k : Nat) (h : tryWords ws (c :: cs) = some k) :
    subWordsAux ws rpl false (c :: cs) =
      rpl ++ subWordsAux ws rpl (isWordChar (((c :: cs).take k).getLastD c)) (cs.drop (k - 1)) := by
  rw [subWordsAux]
  simp [h]

theorem subWordsAux_cons_nomatch (ws : List (List Char)) (rpl : List Char)
    (c : Char) (cs : List Char) (h : tryWords ws (c :: cs) = none) :
    subWordsAux ws rpl false (c :: cs) = c :: subWordsAux ws rpl (isWordChar c) cs := by
  rw [subWordsAux]
  simp [h]

theorem containsSub_of_isPrefixOf (pat l : List Char) (h : pat.isPrefixOf l = true) :
    containsSub pat l = true := by
  cases l with
  | nil =>
    cases pat with
    | nil => rfl
    | cons p ps => simp [List.isPrefixOf] at h
  | cons c cs => simp [containsSub, h]

theorem containsSub_cons_of (pat : List Char) (c : Char) (cs : List Char)
    (h : containsSub pat cs = true) : containsSub pat (c :: cs) = true := by
  simp [containsSub, h]

theorem containsSub_append_left (pat l1 l2 : List Char)
    (h : containsSub pat l2 = true) : containsSub pat (l1 ++ l2) = true := by
  induction l1 with
  | nil => exact h
  | cons c cs ih => exact containsSub_cons_of pat c _ ih

theorem containsSub_prefix_self (pat tail : List Char) :
    containsSub pat (pat ++ tail) = true :=
  containsSub_of_isPrefixOf pat _ (List.isPrefixOf_iff_prefix.mpr ⟨tail, rfl⟩)

theorem containsSub_exists (pat l : List Char) (h : containsSub pat l = true) :
    ∃ u v, l = u ++ pat ++ v := by
  induction l with
  | nil =>
    cases pat with
    | nil => exact ⟨[], [], rfl⟩
    | cons p ps => simp [containsSub] at h
  | cons c cs ih =>
    rw [containsSub, Bool.or_eq_true] at h
    rcases h with h | h
    · obtain ⟨v, hv⟩ := List.isPrefixOf_iff_prefix.mp h
      exact ⟨[], v, hv.symm⟩
    · obtain ⟨u, v, huv⟩ := ih h
      exact ⟨c :: u, v, by rw [huv]; rfl⟩

theorem tryWords_eq_some (ws : List (List Char)) (l : List Char) (k : Nat)
    (h : tryWords ws l = some k) :
    ∃ w ∈ ws, w.length = k ∧ matchWordAt w l = true := by
  induction ws with
  | nil => cases h
  | cons w ws ih =>
    unfold tryWords at h ih
    rw [List.findSome?_cons] at h
    by_cases hm : matchWordAt w l
    · rw [if_pos hm] at h
      injection h with h'
      exact ⟨w, List.mem_cons_self _ _, h', hm⟩
    · rw [if_neg hm] at h
      obtain ⟨w', hw', hl', hm'⟩ := ih h
      exact ⟨w', List.mem_cons_of_mem _ hw', hl', hm'⟩

theorem tryWords_isSome (ws : List (List Char)) (l : List Char) (w : List Char)
    (hw : w ∈ ws) (hm : matchWordAt w l = true) :
    ∃ k, tryWords ws l = some k := by
  induction ws with
  | nil => cases hw
  | cons w0 ws ih =>
    unfold tryWords at ih ⊢
    rw [List.findSome?_cons]
    by_cases hm0 : matchWordAt w0 l
    · rw [if_pos hm0]
      exact ⟨w0.length, rfl⟩
    · rw [if_neg hm0]
      rcases List.mem_cons.mp hw with rfl | hw'
      · exact absurd hm hm0
      · exact ih hw'

theorem matchWord_take (w l : List Char) (h : matchWordAt w l = true) :
    lowerL (l.take w.length) = w := by
  unfold matchWordAt at h
  rw [Bool.and_eq_true] at h
  exact beq_iff_eq.mp h.1

theorem matchWord_boundary (w l : List Char) (h : matchWordAt w l = true) :
    ∀ d, (l.drop w.length).head? = some d → ¬isWordChar d := by
  unfold matchWordAt at h
  rw [Bool.and_eq_true] at h
  intro d hd
  have h2 := h.2
  rw [hd] at h2
  simp at h2
  simp [h2]

/-- Common core: a take of `mid ++ post`, lower-cased, is compatible with
lower-cased `mid`. -/
theorem compat_lowerL_take (mid post : List Char) (n : Nat) :
    compat (lowerL ((mid ++ post).take n)) (lowerL mid) = true := by
  simp only [compat, lowerL, Bool.or_eq_true]
  by_cases hlen : n ≤ mid.length
  · left
    rw [List.take_append_of_le_length hlen]
    exact List.isPrefixOf_iff_prefix.mpr ((List.take_prefix _ _).map toLowerA)
  · right
    rw [List.take_append_eq_append_take, List.take_of_length_le (le_of_not_le hlen),
        List.map_append]
    exact List.isPrefixOf_iff_prefix.mpr ⟨_, rfl⟩

/-- A word matching at a position inside a protected region is compatible
with the region's lower-cased remainder. -/
theorem matchWord_compat (w mid post : List Char) (h : matchWordAt w (mid ++ post) = true) :
    compat w (lowerL mid) = true := by
  have h1 := matchWord_take w _ h
  rw [← h1]
  exact compat_lowerL_take mid post w.length

/-- A word matching from inside an unprotected prefix and overlapping into
the protected region leaves a proper suffix compatible with the region. -/
theorem matchWord_compat_drop (w pre mid post : List Char)
    (h : matchWordAt w (pre ++ mid ++ post) = true) (hlt : pre.length < w.length) :
    compat (w.drop pre.length) (lowerL mid) = true := by
  have h1 := matchWord_take w _ h
  have h3 := congrArg (List.drop pre.length) h1
  rw [lowerL, ← List.map_drop, List.drop_take, List.append_assoc, List.drop_left] at h3
  rw [← h3]
  exact compat_lowerL_take mid post (w.length - pre.length)

theorem getLast?_cons_of_ne_nil (p : Char) (l : List Char) (h : l ≠ []) :
    (p :: l).getLast? = l.getLast? := by
  cases l with
  | nil => exact absurd rfl h
  | cons q qs => exact List.getLast?_cons_cons

theorem getLast?_drop_of_ne_nil (l : List Char) (m : Nat) (h : l.drop m ≠ []) :
    (l.drop m).getLast? = l.getLast? := by
  conv_rhs => rw [← List.take_append_drop m l]
  exact (List.getLast?_append_of_ne_nil _ h).symm

theorem head?_append_of_ne_nil (l1 l2 : List Char) (h : l1 ≠ []) :
    (l1 ++ l2).head? = l1.head? := by
  cases l1 with
  | nil => exact absurd rfl h
  | cons c cs => rfl

/-- The word-character status of the last character scanned, given the
status `prev` before the region. -/
def lastWordState (prev : Bool) (l : List Char) : Bool :=
  match l.getLast? with
  | some d => isWordChar d
  | none => prev

theorem lastWordState_cons (prev : Bool) (c : Char) (cs : List Char) :
    lastWordState prev (c :: cs) = lastWordState (isWordChar c) cs := by
  cases cs with
  | nil => rfl
  | cons d ds =>
    have h := List.getLast?_eq_getLast (d :: ds) (List.cons_ne_nil d ds)
    unfold lastWordState
    rw [List.getLast?_cons_cons, h]

theorem lastWordState_of_ne_nil (prev : Bool) (l : List Char) (h : l ≠ [])
    (hl : ∀ d, l.getLast? = some d → isWordChar d = true) :
    lastWordState prev l = true := by
  have hd := List.getLast?_eq_getLast l h
  unfold lastWordState
  rw [hd]
  exact hl _ hd

/-- No mapping word can match starting at a position inside the protected
region `mid` at which the scanner could attempt a match (start of the
region, or just after a non-word character). -/
def NoInsideMatch (ws : List (List Char)) (mid : List Char) : Prop :=
  ∀ w ∈ ws, ∀ mid1 mid2 : List Char, mid = mid1 ++ mid2 → mid2 ≠ [] →
    (mid1 = [] ∨ ∃ d, mid1.getLast? = some d ∧ isWordChar d = false) →
    compat w (lowerL mid2) = false

/-- No mapping word starting strictly before the protected region can
reach into it. -/
def NoCrossMatch (ws : List (List Char)) (mid : List Char) : Prop :=
  ∀ w ∈ ws, ∀ i : Nat, 0 < i → i < w.length → compat (w.drop i) (lowerL mid) = false

/-- Under `NoInsideMatch`, the scanner copies the protected region
verbatim: the induction walks the region as `mid1 ++ mid2` with the
invariant that a non-word scanner state can only arise at a
match-attemptable boundary. -/
theorem subWordsAux_through (ws : List (List Char)) (rpl : List Char) (mid : List Char)
    (hA : NoInsideMatch ws mid) :
    ∀ mid2 mid1 prev post, mid = mid1 ++ mid2 →
    (prev = false → mid1 = [] ∨ ∃ d, mid1.getLast? = some d ∧ isWordChar d = false) →
    subWordsAux ws rpl prev (mid2 ++ post) =
      mid2 ++ subWordsAux ws rpl (lastWordState prev mid2) post := by
  intro mid2
  induction mid2 with
  | nil =>
    intro mid1 prev post _ _
    simp [lastWordState]
  | cons c cs ih =>
    intro mid1 prev post hsplit hinv
    rw [List.cons_append]
    have hstep : subWordsAux ws rpl prev (c :: (cs ++ post)) =
        c :: subWordsAux ws rpl (isWordChar c) (cs ++ post) := by
      cases prev with
      | true => exact subWordsAux_cons_word ws rpl c (cs ++ post)
      | false =>
        cases htw : tryWords ws (c :: (cs ++ post)) with
        | none => exact subWordsAux_cons_nomatch ws rpl c (cs ++ post) htw
        | some k =>
          exfalso
          obtain ⟨w, hw, _, hm⟩ := tryWords_eq_some _ _ _ htw
          have hcmp : compat w (lowerL (c :: cs)) = true := matchWord_compat w (c :: cs) post hm
          have hfalse := hA w hw mid1 (c :: cs) hsplit (List.cons_ne_nil c cs) (hinv rfl)
          rw [hcmp] at hfalse
          cases hfalse
    rw [hstep, ih (mid1 ++ [c]) (isWordChar c) post (by rw [hsplit, List.append_assoc]; rfl)
        (fun hc => Or.inr ⟨c, List.getLast?_concat mid1, hc⟩),
      lastWordState_cons, List.cons_append]

/-- A word-boundary-delimited occurrence of a mapping alternative forces
the replacement text into the scanner output. -/
theorem subWordsAux_insert (ws : List (List Char)) (rpl : List Char)
    (mid : List Char) (hmid : lowerL mid ∈ ws) (hmne : mid ≠ []) :
    ∀ pre prev post, (pre = [] → prev = false) →
    (∀ d, pre.getLast? = some d → isWordChar d = false) →
    (∀ d, post.head? = some d → isWordChar d = false) →
    containsSub rpl (subWordsAux ws rpl prev (pre ++ mid ++ post)) = true := by
  intro pre
  induction pre with
  | nil =>
    intro prev post hprev hpre hpost
    rw [hprev rfl, List.nil_append]
    have hmatch : matchWordAt (lowerL mid) (mid ++ post) = true := by
      unfold matchWordAt
      rw [Bool.and_eq_true]
      refine ⟨?_, ?_⟩
      · have htake : (mid ++ post).take (lowerL mid).length = mid := by
          simp only [lowerL, List.length_map]
          exact List.take_left mid post
        rw [htake]
        exact beq_self_eq_true (lowerL mid)
      · have hdrop : (mid ++ post).drop (lowerL mid).length = post := by
          simp only [lowerL, List.length_map]
          exact List.drop_left mid post
        rw [hdrop]
        cases hp : post.head? with
        | none => rfl
        | some d =>
          show (!isWordChar d) = true
          rw [hpost d hp]
          rfl
    · obtain ⟨m, mid', rfl⟩ := List.exists_cons_of_ne_nil hmne
      obtain ⟨k, htw⟩ := tryWords_isSome ws ((m :: mid') ++ post) (lowerL (m :: mid')) hmid hmatch
      rw [List.cons_append] at htw ⊢
      rw [subWordsAux_cons_match ws rpl m (mid' ++ post) k htw]
      exact containsSub_prefix_self rpl _
  | cons p pre' ih =>
    intro prev post hprev hpre hpost
    have hpre'_last : ∀ d, pre'.getLast? = some d → isWordChar d = false := by
      intro d hd
      have hne : pre' ≠ [] := by
        intro hn
        rw [hn] at hd
        cases hd
      exact hpre d (by rw [getLast?_cons_of_ne_nil p pre' hne]; exact hd)
    have hpre'_emp : pre' = [] → isWordChar p = false := by
      intro hn
      subst hn
      exact hpre p rfl
    rw [List.cons_append, List.cons_append]
    cases prev with
    | true =>
      rw [subWordsAux_cons_word]
      exact containsSub_cons_of rpl p _ (ih (isWordChar p) post hpre'_emp hpre'_last hpost)
    | false =>
      cases htw : tryWords ws (p :: (pre' ++ mid ++ post)) with
      | none =>
        rw [subWordsAux_cons_nomatch ws rpl p _ htw]
        exact containsSub_cons_of rpl p _ (ih (isWordChar p) post hpre'_emp hpre'_last hpost)
      | some k =>
        rw [subWordsAux_cons_match ws rpl p _ k htw]
        exact containsSub_prefix_self rpl _

/-- With no pre-region matter at all, the protected region survives as a
prefix of the output. -/
theorem subWordsAux_preserve_nil (ws : List (List Char)) (rpl : List Char) (mid : List Char)
    (hA : NoInsideMatch ws mid) (prev : Bool) (post : List Char) :
    containsSub mid (subWordsAux ws rpl prev (mid ++ post)) = true := by
  cases prev with
  | false =>
    rw [subWordsAux_through ws rpl mid hA mid [] false post rfl (fun _ => Or.inl rfl)]
    exact containsSub_prefix_self mid _
  | true =>
    rw [subWordsAux_through ws rpl mid hA mid [] true post rfl (fun hcon => by cases hcon)]
    exact containsSub_prefix_self mid _

/-- Substring preservation: a pass whose words can neither match inside
the protected region nor overlap into it keeps the region as a substring
of its output.  Fuel induction on the prefix length (a match consumes a
positive number of prefix characters). -/
theorem subWordsAux_preserve (ws : List (List Char)) (rpl : List Char) (mid : List Char)
    (hA : NoInsideMatch ws mid) (hB : NoCrossMatch ws mid) :
    ∀ n pre, pre.length ≤ n → ∀ prev post,
    containsSub mid (subWordsAux ws rpl prev (pre ++ mid ++ post)) = true := by
  intro n
  induction n with
  | zero =>
    intro pre hlen prev post
    have hpe : pre = [] := List.length_eq_zero.mp (Nat.le_zero.mp hlen)
    subst hpe
    rw [List.nil_append]
    exact subWordsAux_preserve_nil ws rpl mid hA prev post
  | succ n ih =>
    intro pre hlen prev post
    cases pre with
    | nil =>
      rw [List.nil_append]
      exact subWordsAux_preserve_nil ws rpl mid hA prev post
    | cons p pre' =>
      have hlen' : pre'.length ≤ n := by
        simp only [List.length_cons] at hlen
        omega
      rw [List.cons_append, List.cons_append]
      cases prev with
      | true =>
        rw [subWordsAux_cons_word]
        exact containsSub_cons_of mid p _ (ih pre' hlen' (isWordChar p) post)
      | false =>
        cases htw : tryWords ws (p :: (pre' ++ mid ++ post)) with
        | none =>
          rw [subWordsAux_cons_nomatch ws rpl p _ htw]
          exact containsSub_cons_of mid p _ (ih pre' hlen' (isWordChar p) post)
        | some k =>
          obtain ⟨w, hw, hk, hm⟩ := tryWords_eq_some _ _ _ htw
          by_cases hkle : k ≤ pre'.length + 1
          · rw [subWordsAux_cons_match ws rpl p _ k htw]
            apply containsSub_append_left
            have hrest : ((pre' ++ mid) ++ post).drop (k - 1) =
                (pre'.drop (k - 1) ++ mid) ++ post := by
              rw [List.drop_append_of_le_length (by rw [List.length_append]; omega),
                List.drop_append_of_le_length (by omega)]
            rw [hrest]
            exact ih (pre'.drop (k - 1)) (by rw [List.length_drop]; omega) _ post
          · exfalso
            have hlt : (p :: pre').length < w.length := by
              rw [hk]
              simp only [List.length_cons]
              omega
            have hcmp := matchWord_compat_drop w (p :: pre') mid post hm hlt
            have hfalse := hB w hw (p :: pre').length (by simp) hlt
            rw [hcmp] at hfalse
            cases hfalse

/-- Base case of the boundary-preserving variant: the output starts with
the protected region and the following character (if any) is the head of
the untouched `post`. -/
theorem subWordsAux_bocc_nil (ws : List (List Char)) (rpl : List Char)
    (mid post : List Char) (hA : NoInsideMatch ws mid) (hmne : mid ≠ [])
    (hml : ∀ d, mid.getLast? = some d → isWordChar d = true)
    (hpost : ∀ d, post.head? = some d → isWordChar d = false) :
    ∃ v, subWordsAux ws rpl false (mid ++ post) = mid ++ v ∧
      (∀ d, v.head? = some d → isWordChar d = false) := by
  rw [subWordsAux_through ws rpl mid hA mid [] false post rfl (fun _ => Or.inl rfl)]
  refine ⟨_, rfl, ?_⟩
  rw [lastWordState_of_ne_nil false mid hmne hml]
  cases post with
  | nil =>
    intro d hd
    rw [subWordsAux_nil] at hd
    exact Option.noConfusion hd
  | cons a post' =>
    rw [subWordsAux_cons_word]
    intro d hd
    exact hpost d hd

/-- Boundary-preserving substring preservation: a pass satisfying the
no-overlap conditions keeps a word-boundary-delimited protected region
boundary-delimited in its output (so a later pass can still match it).
The region must start and end with word characters. -/
theorem subWordsAux_preserve_bocc (ws : List (List Char)) (rpl : List Char)
    (mid post : List Char)
    (hA : NoInsideMatch ws mid) (hB : NoCrossMatch ws mid)
    (hwne : ∀ w ∈ ws, w ≠ []) (hmne : mid ≠ [])
    (hmh : ∀ d, mid.head? = some d → isWordChar d = true)
    (hml : ∀ d, mid.getLast? = some d → isWordChar d = true)
    (hpost : ∀ d, post.head? = some d → isWordChar d = false) :
    ∀ n pre, pre.length ≤ n → ∀ prev,
    (pre = [] → prev = false) →
    (∀ d, pre.getLast? = some d → isWordChar d = false) →
    ∃ u v, subWordsAux ws rpl prev (pre ++ mid ++ post) = u ++ mid ++ v ∧
      (u = [] → pre = []) ∧
      (∀ d, u.getLast? = some d → isWordChar d = false) ∧
      (∀ d, v.head? = some d → isWordChar d = false) := by
  intro n
  induction n with
  | zero =>
    intro pre hlen prev hprev hpre
    have hpe : pre = [] := List.length_eq_zero.mp (Nat.le_zero.mp hlen)
    subst hpe
    rw [hprev rfl, List.nil_append]
    obtain ⟨v, hv, hvb⟩ := subWordsAux_bocc_nil ws rpl mid post hA hmne hml hpost
    exact ⟨[], v, by rw [hv]; rfl, fun _ => rfl, fun d hd => Option.noConfusion hd, hvb⟩
  | succ n ih =>
    intro pre hlen prev hprev hpre
    cases pre with
    | nil =>
      rw [hprev rfl, List.nil_append]
      obtain ⟨v, hv, hvb⟩ := subWordsAux_bocc_nil ws rpl mid post hA hmne hml hpost
      exact ⟨[], v, by rw [hv]; rfl, fun _ => rfl, fun d hd => Option.noConfusion hd, hvb⟩
    | cons p pre' =>
      have hpre'_last : ∀ d, pre'.getLast? = some d → isWordChar d = false := by
        intro d hd
        have hne : pre' ≠ [] := fun hn => by rw [hn] at hd; exact Option.noConfusion hd
        exact hpre d (by rw [getLast?_cons_of_ne_nil p pre' hne]; exact hd)
      have hpre'_emp : pre' = [] → isWordChar p = false := by
        intro hn
        subst hn
        exact hpre p rfl
      have hlen' : pre'.length ≤ n := by
        simp only [List.length_cons] at hlen
        omega
      rw [List.cons_append, List.cons_append]
      cases prev with
      | true =>
        rw [subWordsAux_cons_word]
        obtain ⟨u', v', hout, hue, hub, hvb⟩ :=
          ih pre' hlen' (isWordChar p) hpre'_emp hpre'_last
        refine ⟨p :: u', v', ?_, ?_, ?_, hvb⟩
        · rw [hout, List.cons_append, List.cons_append]
        · exact fun hcon => absurd hcon (List.cons_ne_nil p u')
        · intro d hd
          cases u' with
          | nil =>
            have hpf := hpre'_emp (hue rfl)
            injection hd with hd'
            rw [← hd']
            exact hpf
          | cons q qs =>
            rw [List.getLast?_cons_cons] at hd
            exact hub d hd
      | false =>
        cases htw : tryWords ws (p :: (pre' ++ mid ++ post)) with
        | none =>
          rw [subWordsAux_cons_nomatch ws rpl p _ htw]
          obtain ⟨u', v', hout, hue, hub, hvb⟩ :=
            ih pre' hlen' (isWordChar p) hpre'_emp hpre'_last
          refine ⟨p :: u', v', ?_, ?_, ?_, hvb⟩
          · rw [hout, List.cons_append, List.cons_append]
          · exact fun hcon => absurd hcon (List.cons_ne_nil p u')
          · intro d hd
            cases u' with
            | nil =>
              have hpf := hpre'_emp (hue rfl)
              injection hd with hd'
              rw [← hd']
              exact hpf
            | cons q qs =>
              rw [List.getLast?_cons_cons] at hd
              exact hub d hd
        | some k =>
          obtain ⟨w, hw, hk, hm⟩ := tryWords_eq_some _ _ _ htw
          rcases Nat.lt_trichotomy k (pre'.length + 1) with hkc | hkc | hkc
          · rw [subWordsAux_cons_match ws rpl p _ k htw]
            have hk1 : 1 ≤ k := by
              rw [← hk]
              have hwn := hwne w hw
              cases w with
              | nil => exact absurd rfl hwn
              | cons c cs => exact Nat.succ_le_succ (Nat.zero_le _)
            have hne'' : pre'.drop (k - 1) ≠ [] := by
              intro hcon
              have hlc := congrArg List.length hcon
              rw [List.length_drop] at hlc
              simp only [List.length_nil] at hlc
              omega
            have hrest : ((pre' ++ mid) ++ post).drop (k - 1) =
                (pre'.drop (k - 1) ++ mid) ++ post := by
              rw [List.drop_append_of_le_length (by rw [List.length_append]; omega),
                List.drop_append_of_le_length (by omega)]
            obtain ⟨u', v', hout, hue, hub, hvb⟩ :=
              ih (pre'.drop (k - 1)) (by rw [List.length_drop]; omega)
                (isWordChar (((p :: (pre' ++ mid ++ post)).take k).getLastD p))
                (fun hcon => absurd hcon hne'')
                (fun d hd => hpre'_last d
                  (by rw [← getLast?_drop_of_ne_nil pre' (k - 1) hne'']; exact hd))
            have hune : u' ≠ [] := fun hcon => hne'' (hue hcon)
            refine ⟨rpl ++ u', v', ?_, ?_, ?_, hvb⟩
            · rw [hrest, hout]
              simp only [List.append_assoc]
            · exact fun hcon => absurd (List.append_eq_nil.mp hcon).2 hune
            · intro d hd
              rw [List.getLast?_append_of_ne_nil rpl hune] at hd
              exact hub d hd
          · exfalso
            have hb := matchWord_boundary w _ hm
            obtain ⟨m0, mid0, hmid0⟩ := List.exists_cons_of_ne_nil hmne
            have hassoc : p :: ((pre' ++ mid) ++ post) = (p :: pre') ++ (mid ++ post) := by
              simp
            have hdrop : (p :: ((pre' ++ mid) ++ post)).drop w.length = mid ++ post := by
              rw [hassoc, hk, hkc]
              exact List.drop_left (p :: pre') (mid ++ post)
            exact hb m0 (by rw [hdrop, hmid0]; rfl) (hmh m0 (by rw [hmid0]; rfl))
          · exfalso
            have hlt : (p :: pre').length < w.length := by
              rw [hk]
              simp only [List.length_cons]
              omega
            have hcmp := matchWord_compat_drop w (p :: pre') mid post hm hlt
            have hfalse := hB w hw (p :: pre').length (by simp) hlt
            rw [hcmp] at hfalse
            cases hfalse

/-- A character whose ASCII lower-casing is a letter is a word character. -/
theorem isWordChar_of_toLowerA_alpha (d : Char) (h : (toLowerA d).isAlpha = true) :
    isWordChar d = true := by
  unfold toLowerA at h
  by_cases hc : 'A' ≤ d ∧ d ≤ 'Z'
  · have hup : d.isUpper = true := by
      unfold Char.isUpper
      rw [Bool.and_eq_true]
      exact ⟨decide_eq_true hc.1, decide_eq_true hc.2⟩
    unfold isWordChar Char.isAlpha
    rw [hup]
    rfl
  · rw [if_neg hc] at h
    unfold isWordChar
    rw [h]
    rfl

/-- A region whose lower-casing is a list of letters consists of word
characters. -/
theorem allWord_of_lowerL (mid target : List Char) (hlow : lowerL mid = target)
    (htgt : ∀ c ∈ target, c.isAlpha = true) : ∀ d ∈ mid, isWordChar d = true :=
  fun d hd => isWordChar_of_toLowerA_alpha d (htgt _ (hlow ▸ List.mem_map_of_mem toLowerA hd))

/-- `NoInsideMatch` for an all-word-character region: the only
match-attemptable position is the very start. -/
theorem noInsideMatch_of_allWord (ws : List (List Char)) (mid : List Char)
    (hall : ∀ d ∈ mid, isWordChar d = true)
    (hfull : ∀ w ∈ ws, compat w (lowerL mid) = false) :
    NoInsideMatch ws mid := by
  intro w hw mid1 mid2 hsplit hne hb
  rcases hb with hb | ⟨d, hd, hdw⟩
  · subst hb
    rw [List.nil_append] at hsplit
    rw [← hsplit]
    exact hfull w hw
  · exfalso
    have hmem : d ∈ mid := by
      rw [hsplit]
      exact List.mem_append_left mid2 (List.mem_of_mem_getLast? hd)
    rw [hall d hmem] at hdw
    cases hdw

/-- Bounded check for `NoCrossMatch`: every proper nonempty suffix of every
word is incompatible with the (lower-cased) region. -/
def condCross (ws : List (List Char)) (tgt : List Char) : Bool :=
  ws.all fun w => (List.range w.length).all fun i =>
    decide (i = 0) || !compat (w.drop i) tgt

theorem noCrossMatch_of_condCross (ws : List (List Char)) (mid : List Char)
    (h : condCross ws (lowerL mid) = true) : NoCrossMatch ws mid := by
  intro w hw i hi hlt
  have h1 := (List.all_eq_true.mp h) w hw
  have h2 := (List.all_eq_true.mp h1) i (List.mem_range.mpr hlt)
  rw [Bool.or_eq_true] at h2
  rcases h2 with h2 | h2
  · exact absurd (of_decide_eq_true h2) (by omega)
  · rwa [Bool.not_eq_true'] at h2

/-- Bounded check for `NoInsideMatch`: walk the region carrying the flag
"a match could start here" (true initially, afterwards exactly when the
previous character is not a word character). -/
def condInsideAux (ws : List (List Char)) : Bool → List Char → Bool
  | _, [] => true
  | bposs, c :: cs =>
    (!bposs || ws.all fun w => !compat w (lowerL (c :: cs))) &&
      condInsideAux ws (!isWordChar c) cs

theorem condInsideAux_split (ws : List (List Char)) :
    ∀ m1 m2 bposs, condInsideAux ws bposs (m1 ++ m2) = true → m2 ≠ [] →
    (m1 = [] → bposs = true) →
    (m1 = [] ∨ ∃ d, m1.getLast? = some d ∧ isWordChar d = false) →
    ∀ w ∈ ws, compat w (lowerL m2) = false := by
  intro m1
  induction m1 with
  | nil =>
    intro m2 bposs h hne hbe _ w hw
    obtain ⟨c, m2', rfl⟩ := List.exists_cons_of_ne_nil hne
    rw [List.nil_append] at h
    unfold condInsideAux at h
    rw [hbe rfl, Bool.and_eq_true, Bool.or_eq_true] at h
    rcases h.1 with hfalse | hall
    · cases hfalse
    · have := (List.all_eq_true.mp hall) w hw
      rwa [Bool.not_eq_true'] at this
  | cons p m1' ih =>
    intro m2 bposs h hne _ hb w hw
    rw [List.cons_append] at h
    unfold condInsideAux at h
    rw [Bool.and_eq_true] at h
    rcases hb with hb | ⟨d, hd, hdw⟩
    · exact absurd hb (List.cons_ne_nil p m1')
    · cases hm1' : m1' with
      | nil =>
        subst hm1'
        have hdp : d = p := by
          injection hd with hd'
          exact hd'.symm
        subst hdp
        exact ih m2 (!isWordChar d) h.2 hne (fun _ => by rw [hdw]; rfl) (Or.inl rfl) w hw
      | cons q qs =>
        have hne' : m1' ≠ [] := by rw [hm1']; exact List.cons_ne_nil q qs
        rw [← hm1'] at *
        refine ih m2 (!isWordChar p) h.2 hne (fun hcon => absurd hcon hne')
          (Or.inr ⟨d, ?_, hdw⟩) w hw
        rw [← getLast?_cons_of_ne_nil p m1' hne']
        exact hd

theorem noInsideMatch_of_condInside (ws : List (List Char)) (mid : List Char)
    (h : condInsideAux ws true mid = true) : NoInsideMatch ws mid := by
  intro w hw mid1 mid2 hsplit hne hb
  exact condInsideAux_split ws mid1 mid2 true (by rw [← hsplit]; exact h) hne
    (fun _ => rfl) hb w hw

theorem containsSub_intro (pat l u v : List Char) (h : l = u ++ pat ++ v) :
    containsSub pat l = true := by
  rw [h, List.append_assoc]
  exact containsSub_append_left pat u _ (containsSub_prefix_self pat v)

/-- A pass satisfying the no-overlap conditions keeps the region a
substring of its output. -/
theorem subWords_keep (ws : List (List Char)) (rpl : List Char) (mid : List Char)
    (hA : NoInsideMatch ws mid) (hB : NoCrossMatch ws mid)
    (l : List Char) (h : containsSub mid l = true) :
    containsSub mid (subWords ws rpl l) = true := by
  obtain ⟨u, v, rfl⟩ := containsSub_exists mid l h
  exact subWordsAux_preserve ws rpl mid hA hB u.length u le_rfl false v

/-- `str.strip()` keeps a substring whose two ends are not whitespace. -/
theorem containsSub_pyStrip (m l : List Char) (hmne : m ≠ [])
    (hh : ∀ d, m.head? = some d → isPySpace d = false)
    (hl : ∀ d, m.getLast? = some d → isPySpace d = false)
    (h : containsSub m l = true) : containsSub m (pyStrip l) = true := by
  obtain ⟨u, v, rfl⟩ := containsSub_exists m l h
  unfold pyStrip
  have step : ∀ (x y : List Char), (∀ d, y.head? = some d → isPySpace d = false) →
      y ≠ [] → ∃ x', (x ++ y).dropWhile isPySpace = x' ++ y := by
    intro x y hy hyne
    rw [List.dropWhile_append]
    by_cases he : (x.dropWhile isPySpace).isEmpty
    · rw [if_pos he]
      obtain ⟨c, y', rfl⟩ := List.exists_cons_of_ne_nil hyne
      refine ⟨[], ?_⟩
      rw [List.nil_append, List.dropWhile_cons,
        if_neg (by rw [hy c rfl]; exact Bool.false_ne_true)]
    · rw [if_neg he]
      exact ⟨_, rfl⟩
  rw [List.append_assoc]
  obtain ⟨u', hu'⟩ := step u (m ++ v)
    (fun d hd => hh d (by rw [← head?_append_of_ne_nil m v hmne]; exact hd))
    (fun hc => hmne (List.append_eq_nil.mp hc).1)
  rw [hu']
  have hrne : m.reverse ≠ [] := fun hc => hmne (List.reverse_eq_nil_iff.mp hc)
  have hrev : (u' ++ (m ++ v)).reverse = v.reverse ++ (m.reverse ++ u'.reverse) := by
    simp [List.reverse_append]
  rw [hrev]
  obtain ⟨v'', hv''⟩ := step v.reverse (m.reverse ++ u'.reverse)
    (fun d hd => hl d (by
      rw [← List.head?_reverse m, ← head?_append_of_ne_nil m.reverse u'.reverse hrne]
      exact hd))
    (fun hc => hrne (List.append_eq_nil.mp hc).1)
  rw [hv'']
  have hfin : (v'' ++ (m.reverse ++ u'.reverse)).reverse = (u' ++ m) ++ v''.reverse := by
    simp [List.reverse_append]
  rw [hfin]
  exact containsSub_intro m _ u' v''.reverse rfl

/-- A pass that cannot match anywhere in its input returns it unchanged. -/
theorem subWords_id_of_noInside (ws : List (List Char)) (rpl : List Char)
    (mid : List Char) (hA : NoInsideMatch ws mid) :
    subWords ws rpl mid = mid := by
  unfold subWords
  have h := subWordsAux_through ws rpl mid hA mid [] false [] rfl (fun _ => Or.inl rfl)
  rw [List.append_nil, subWordsAux_nil, List.append_nil] at h
  exact h

/-- C8 counterexample: `"xresponsibilities"` contains `"responsibilities"`
case-insensitively, but the mapping pattern carries `\b` word boundaries,
so `convert_to_markdown` inserts no heading (the occurrence is preceded by
the word character `x`). -/
theorem claim_C8_counterexample_word_boundary :
    containsSubCI "responsibilities".data "xresponsibilities".data = true ∧
    containsSub "## Responsibilities".data
      (convert_to_markdown (fun x => x) "xresponsibilities".data) = false := by
  refine ⟨by decide, ?_⟩
  have hconv : convert_to_markdown (fun x => x) "xresponsibilities".data =
      pyStrip (applyHeadingMap "xresponsibilities".data) := by
    simp only [convert_to_markdown]
    rw [if_neg (by decide)]
  have hunf : applyHeadingMap "xresponsibilities".data =
    subWords ["benefits".data, "perks".data, "what we offer".data] "## Benefits".data
      (subWords ["about us".data, "company overview".data] "## About Us".data
      (subWords ["location".data, "work location".data] "## Location".data
      (subWords ["salary".data, "compensation".data, "pay".data] "## Compensation".data
      (subWords ["experience".data] "## Experience".data
      (subWords ["education".data] "## Education".data
      (subWords ["preferred".data, "nice to have".data] "## Preferred Qualifications".data
      (subWords ["qualifications".data, "required skills".data, "requirements".data] "## Qualifications".data
      (subWords ["responsibilities".data, "duties".data, "tasks".data] "## Responsibilities".data
      (subWords ["job description".data, "overview".data, "summary".data] "## Job Description".data
      ("xresponsibilities".data)))))))))) := rfl
  rw [hconv, hunf,
    subWords_id_of_noInside ["job description".data, "overview".data, "summary".data] "## Job Description".data "xresponsibilities".data
      (noInsideMatch_of_condInside _ _ (by decide)),
    subWords_id_of_noInside ["responsibilities".data, "duties".data, "tasks".data] "## Responsibilities".data "xresponsibilities".data
      (noInsideMatch_of_condInside _ _ (by decide)),
    subWords_id_of_noInside ["qualifications".data, "required skills".data, "requirements".data] "## Qualifications".data "xresponsibilities".data
      (noInsideMatch_of_condInside _ _ (by decide)),
    subWords_id_of_noInside ["preferred".data, "nice to have".data] "## Preferred Qualifications".data "xresponsibilities".data
      (noInsideMatch_of_condInside _ _ (by decide)),
    subWords_id_of_noInside ["education".data] "## Education".data "xresponsibilities".data
      (noInsideMatch_of_condInside _ _ (by decide)),
    subWords_id_of_noInside ["experience".data] "## Experience".data "xresponsibilities".data
      (noInsideMatch_of_condInside _ _ (by decide)),
    subWords_id_of_noInside ["salary".data, "compensation".data, "pay".data] "## Compensation".data "xresponsibilities".data
      (noInsideMatch_of_condInside _ _ (by decide)),
    subWords_id_of_noInside ["location".data, "work location".data] "## Location".data "xresponsibilities".data
      (noInsideMatch_of_condInside _ _ (by decide)),
    subWords_id_of_noInside ["about us".data, "company overview".data] "## About Us".data "xresponsibilities".data
      (noInsideMatch_of_condInside _ _ (by decide)),
    subWords_id_of_noInside ["benefits".data, "perks".data, "what we offer".data] "## Benefits".data "xresponsibilities".data
      (noInsideMatch_of_condInside _ _ (by decide))]
  decide

/-- C8 (amended): for a non-HTML document containing a word-boundary-
delimited, case-insensitive occurrence of `"responsibilities"` (the
characters immediately before and after the occurrence, if any, are not
word characters), the output of `convert_to_markdown` contains the heading
`"## Responsibilities"`.  The original claim, which required only a plain
case-insensitive substring occurrence, is refuted by
`claim_C8_counterexample_word_boundary`. -/
theorem claim_C8_responsibilities_heading_amended
    (mdConv : List Char → List Char) (t pre mid post : List Char)
    (hfmt : detect_format t ≠ "html")
    (hsplit : t = pre ++ mid ++ post)
    (hlow : lowerL mid = "responsibilities".data)
    (hpre : ∀ d, pre.getLast? = some d → isWordChar d = false)
    (hpost : ∀ d, post.head? = some d → isWordChar d = false) :
    containsSub "## Responsibilities".data (convert_to_markdown mdConv t) = true := by
  subst hsplit
  have hconv : convert_to_markdown mdConv ((pre ++ mid) ++ post) =
      pyStrip (applyHeadingMap ((pre ++ mid) ++ post)) := by
    simp only [convert_to_markdown]
    rw [if_neg hfmt]
  have hunf : applyHeadingMap ((pre ++ mid) ++ post) =
    subWords ["benefits".data, "perks".data, "what we offer".data] "## Benefits".data
      (subWords ["about us".data, "company overview".data] "## About Us".data
      (subWords ["location".data, "work location".data] "## Location".data
      (subWords ["salary".data, "compensation".data, "pay".data] "## Compensation".data
      (subWords ["experience".data] "## Experience".data
      (subWords ["education".data] "## Education".data
      (subWords ["preferred".data, "nice to have".data] "## Preferred Qualifications".data
      (subWords ["qualifications".data, "required skills".data, "requirements".data] "## Qualifications".data
      (subWords ["responsibilities".data, "duties".data, "tasks".data] "## Responsibilities".data
      (subWords ["job description".data, "overview".data, "summary".data] "## Job Description".data
      ((pre ++ mid) ++ post)))))))))) := rfl
  have hall : ∀ d ∈ mid, isWordChar d = true :=
    allWord_of_lowerL mid "responsibilities".data hlow (by decide)
  have hmne : mid ≠ [] := by
    intro hc
    rw [hc] at hlow
    exact absurd hlow (by decide)
  have hmh : ∀ d, mid.head? = some d → isWordChar d = true :=
    fun d hd => hall d (List.mem_of_mem_head? hd)
  have hml : ∀ d, mid.getLast? = some d → isWordChar d = true :=
    fun d hd => hall d (List.mem_of_mem_getLast? hd)
  have hfull1 : ∀ w ∈ ["job description".data, "overview".data, "summary".data],
      compat w ("responsibilities".data) = false := by decide
  have hA1 : NoInsideMatch ["job description".data, "overview".data, "summary".data] mid :=
    noInsideMatch_of_allWord _ mid hall (fun w hw => by rw [hlow]; exact hfull1 w hw)
  have hB1 : NoCrossMatch ["job description".data, "overview".data, "summary".data] mid :=
    noCrossMatch_of_condCross _ mid (by rw [hlow]; decide)
  have hwne1 : ∀ w ∈ ["job description".data, "overview".data, "summary".data], w ≠ [] := by
    decide
  obtain ⟨u1, v1, hout1, _, hub1, hvb1⟩ :=
    subWordsAux_preserve_bocc ["job description".data, "overview".data, "summary".data]
      ("## Job Description".data) mid post hA1 hB1 hwne1 hmne hmh hml hpost
      pre.length pre le_rfl false (fun _ => rfl) hpre
  have h1 : subWords ["job description".data, "overview".data, "summary".data]
      ("## Job Description".data) ((pre ++ mid) ++ post) = (u1 ++ mid) ++ v1 := hout1
  have hmem2 : lowerL mid ∈ ["responsibilities".data, "duties".data, "tasks".data] := by
    rw [hlow]
    exact List.mem_cons_self _ _
  have hins := subWordsAux_insert ["responsibilities".data, "duties".data, "tasks".data]
    ("## Responsibilities".data) mid hmem2 hmne u1 false v1 (fun _ => rfl) hub1 hvb1
  have hc2 : containsSub "## Responsibilities".data
      (subWords ["responsibilities".data, "duties".data, "tasks".data]
        ("## Responsibilities".data)
        (subWords ["job description".data, "overview".data, "summary".data]
          ("## Job Description".data) ((pre ++ mid) ++ post))) = true := by
    rw [h1]
    exact hins
  have hc3 := subWords_keep ["qualifications".data, "required skills".data, "requirements".data] "## Qualifications".data
    "## Responsibilities".data
    (noInsideMatch_of_condInside _ _ (by decide))
    (noCrossMatch_of_condCross _ _ (by decide)) _ hc2
  have hc4 := subWords_keep ["preferred".data, "nice to have".data] "## Preferred Qualifications".data
    "## Responsibilities".data
    (noInsideMatch_of_condInside _ _ (by decide))
    (noCrossMatch_of_condCross _ _ (by decide)) _ hc3
  have hc5 := subWords_keep ["education".data] "## Education".data
    "## Responsibilities".data
    (noInsideMatch_of_condInside _ _ (by decide))
    (noCrossMatch_of_condCross _ _ (by decide)) _ hc4
  have hc6 := subWords_keep ["experience".data] "## Experience".data
    "## Responsibilities".data
    (noInsideMatch_of_condInside _ _ (by decide))
    (noCrossMatch_of_condCross _ _ (by decide)) _ hc5
  have hc7 := subWords_keep ["salary".data, "compensation".data, "pay".data] "## Compensation".data
    "## Responsibilities".data
    (noInsideMatch_of_condInside _ _ (by decide))
    (noCrossMatch_of_condCross _ _ (by decide)) _ hc6
  have hc8 := subWords_keep ["location".data, "work location".data] "## Location".data
    "## Responsibilities".data
    (noInsideMatch_of_condInside _ _ (by decide))
    (noCrossMatch_of_condCross _ _ (by decide)) _ hc7
  have hc9 := subWords_keep ["about us".data, "company overview".data] "## About Us".data
    "## Responsibilities".data
    (noInsideMatch_of_condInside _ _ (by decide))
    (noCrossMatch_of_condCross _ _ (by decide)) _ hc8
  have hc10 := subWords_keep ["benefits".data, "perks".data, "what we offer".data] "## Benefits".data
    "## Responsibilities".data
    (noInsideMatch_of_condInside _ _ (by decide))
    (noCrossMatch_of_condCross _ _ (by decide)) _ hc9
  have hh2 : ∀ d, ("## Responsibilities".data).head? = some d → isPySpace d = false := by
    intro d hd
    injection hd with h3
    rw [← h3]
    decide
  have hl2 : ∀ d, ("## Responsibilities".data).getLast? = some d → isPySpace d = false := by
    intro d hd
    rw [show ("## Responsibilities".data).getLast? = some 's' from rfl] at hd
    injection hd with h3
    rw [← h3]
    decide
  rw [hconv]
  exact containsSub_pyStrip _ _ (by decide) hh2 hl2 (by rw [hunf]; exact hc10)

/-- Witness for C8 (amended) at a concrete boundary-delimited input. -/
theorem claim_C8_responsibilities_heading_amended_witness :
    containsSub "## Responsibilities".data
      (convert_to_markdown (fun x => x) "Key Responsibilities: details".data) = true :=
  claim_C8_responsibilities_heading_amended (fun x => x)
    "Key Responsibilities: details".data "Key ".data "Responsibilities".data ": details".data
    (by decide) (by decide) (by decide)
    (by
      intro d hd
      rw [show ("Key ".data).getLast? = some ' ' from rfl] at hd
      injection hd with h3
      rw [← h3]
      decide)
    (by
      intro d hd
      injection hd with h3
      rw [← h3]
      decide)

end SmartCV
